import Mathlib

/-!
Verification of the `tp` text-parsing library (Earley recognizer, derivation
builder, grammar scanner, NFA lexer, regex front-end) against its
natural-language specification.

The Go source is shallowly embedded: symbols are numeric identifiers, a rule
object is identified by its index into a global rule list (Go compares rules
by pointer identity, and every distinct rule object gets a distinct index
here), and the mutable chart is threaded explicitly.  Loops whose bound grows
while they run (the Earley worklist, the builder's depth-first search) take a
fuel argument and return `none` when the fuel runs out; `some` results agree
with the Go execution, and `none` for every fuel models divergence.
-/

namespace TP

/-- Embeds the Go `rule` struct (parser.go): the produced symbol
(`Implements`), the ordered dependency symbols (`Deps`) and the method index
used for the builder's tie-break (`Index`).  The action (`Method`) lives in
`EGrammar.action`, keyed by the rule's identity, since the matcher never
consults it. -/
structure ERule where
  implements : Nat
  deps : List Nat
  ruleIndex : Int
deriving DecidableEq, Repr

/-- Embeds a Go token value: its dynamic type tag and an integer payload. -/
structure ETok where
  ttype : Nat
  payload : Int
deriving DecidableEq, Repr

/-- Semantic values produced by rule actions (`buildFromSpan`): covers the
value types of the grammars exercised by the claims (integer expressions,
slices, and the regex front-end's expression tree). -/
inductive Val where
  | tok (t : ETok)
  | vint (n : Int)
  | vadd (l r : Val)
  | vnil
  | vcons (hd tl : Val)
  | vmatch (lo hi : Int)
  | vseq (l r : Val)
  | vchoice (l r : Val)
  | vrepeat (e : Val)
  | vnest (e : Val)
  | vempty
deriving DecidableEq, Repr

/-- A Go slice value, encoded as a `vcons` chain. -/
def Val.ofList (xs : List Val) : Val :=
  xs.foldr Val.vcons Val.vnil

/-- Embeds the symbol graph a `scanner` produces, as the matcher consumes it:
`rules` lists every distinct `rule` object (identity = index), `preds s` is
symbol `s`'s `Predictions` list, `nullable` and `isTok` are the `Nullable`
and `TokenType != nil` flags, `tokMatches t s` is Go's
`tokType.AssignableTo(s.TokenType)`, and `root` is the start symbol. -/
structure EGrammar where
  rules : List ERule
  preds : Nat → List Nat
  nullable : Nat → Bool
  isTok : Nat → Bool
  tokMatches : Nat → Nat → Bool
  root : Nat
  action : Nat → List Val → Val

/-- Looks a rule up by identity (total, padded with a vacuous rule: the
matcher only ever uses indices of rules it inserted). -/
def EGrammar.rule (g : EGrammar) (i : Nat) : ERule :=
  (g.rules[i]?).getD { implements := 0, deps := [], ruleIndex := 0 }

/-- Embeds the Go `item` struct: rule identity, origin position, progress. -/
structure EItem where
  rule : Nat
  position : Nat
  progress : Nat
deriving DecidableEq, Repr

/-- Go `item.nextSymbol`: the next expected symbol, or `none` when the item
is complete. -/
def EItem.nextSymbol (g : EGrammar) (x : EItem) : Option Nat :=
  if x.progress = (g.rule x.rule).deps.length then none
  else (g.rule x.rule).deps[x.progress]?

/-- Go `item.makeProgress`. -/
def EItem.makeProgress (x : EItem) : EItem :=
  { rule := x.rule, position := x.position, progress := x.progress + 1 }

/-- The chart (`matcher.state`): one item list per input position. -/
abbrev EState := List (List EItem)

/-- The item set at position `i` (empty when out of range). -/
def getSet (st : EState) (i : Nat) : List EItem :=
  (st[i]?).getD []

/-- Applies `f` to the list element at index `n` (identity out of range). -/
def updateAt {α : Type} : Nat → (α → α) → List α → List α
  | _, _, [] => []
  | 0, f, a :: as => f a :: as
  | n + 1, f, a :: as => a :: updateAt n f as

/-- Go `matcher.addTo`: append `x` to set `pos` unless already present. -/
def addTo (pos : Nat) (x : EItem) (st : EState) : EState :=
  if (getSet st pos).contains x then st else updateAt pos (fun l => l ++ [x]) st

/-- Go `matcher.predict`: insert a fresh item for each production of `s`. -/
def predict (g : EGrammar) (cur : Nat) (s : Nat) (st : EState) : EState :=
  (g.preds s).foldl (fun acc r => addTo cur { rule := r, position := cur, progress := 0 } acc) st

/-- Go `matcher.complete`: for each item of the snapshot of set `x.position`
expecting `x`'s produced symbol, insert its advancement into set `cur`.  The
snapshot is taken once (Go ranges over the slice header as of loop entry). -/
def completeItem (g : EGrammar) (cur : Nat) (x : EItem) (st : EState) : EState :=
  (getSet st x.position).foldl
    (fun acc y =>
      match y.nextSymbol g with
      | none => acc
      | some nx =>
        if nx = (g.rule x.rule).implements then addTo cur y.makeProgress acc else acc)
    st

/-- The body of Go `matcher.step` for a single worklist item: complete when
done; scan on a matching terminal; otherwise the nullable advance followed by
prediction. -/
def processStepItem (g : EGrammar) (tok : ETok) (cur : Nat) (x : EItem) (st : EState) : EState :=
  match x.nextSymbol g with
  | none => completeItem g cur x st
  | some nx =>
    if g.isTok nx then
      if g.tokMatches tok.ttype nx then addTo (cur + 1) x.makeProgress st else st
    else
      predict g cur nx (if g.nullable nx then addTo cur x.makeProgress st else st)

/-- The worklist loop of Go `matcher.step`: process `state[cur][i]` while
`i < len(state[cur])`, where processing may append to the very set being
walked.  `none` when the fuel runs out first. -/
def stepLoop (g : EGrammar) (tok : ETok) (cur : Nat) : Nat → Nat → EState → Option EState
  | 0, i, st => if i < (getSet st cur).length then none else some st
  | fuel + 1, i, st =>
    if h : i < (getSet st cur).length then
      stepLoop g tok cur fuel (i + 1) (processStepItem g tok cur ((getSet st cur).get ⟨i, h⟩) st)
    else some st

/-- The body of Go `matcher.finalStep` for a single worklist item: complete
when done; on a nullable next symbol, advance and predict (no scan). -/
def processFinalItem (g : EGrammar) (cur : Nat) (x : EItem) (st : EState) : EState :=
  match x.nextSymbol g with
  | none => completeItem g cur x st
  | some nx => if g.nullable nx then predict g cur nx (addTo cur x.makeProgress st) else st

/-- The worklist loop of Go `matcher.finalStep`. -/
def finalLoop (g : EGrammar) (cur : Nat) : Nat → Nat → EState → Option EState
  | 0, i, st => if i < (getSet st cur).length then none else some st
  | fuel + 1, i, st =>
    if h : i < (getSet st cur).length then
      finalLoop g cur fuel (i + 1) (processFinalItem g cur ((getSet st cur).get ⟨i, h⟩) st)
    else some st

/-- The loop of Go `matcher.run`: for each token append a fresh set, run
`step`, advance `cur`; afterwards run `finalStep`. -/
def runLoop (g : EGrammar) (fuel : Nat) : List ETok → Nat → EState → Option EState
  | [], cur, st => finalLoop g cur fuel 0 st
  | t :: ts, cur, st =>
    match stepLoop g t cur fuel 0 (st ++ [[]]) with
    | none => none
    | some st' => runLoop g fuel ts (cur + 1) st'

/-- Go `matcher.run` up to (but not including) the final `matches` call: the
chart after prediction of the root into set 0, all steps, and the final
step. -/
def runState (g : EGrammar) (toks : List ETok) (fuel : Nat) : Option EState :=
  runLoop g fuel toks 0 (predict g 0 g.root [[]])

/-- The recognizer's two error outcomes (`ErrUnexpectedToken` carrying the
offending token, and `io.ErrUnexpectedEOF`). -/
inductive RunErr where
  | unexpectedToken (t : ETok)
  | unexpectedEOF
deriving DecidableEq, Repr

/-- The acceptance test of the loop in Go `matcher.matches`: the item's rule
implements the root, its origin is 0 and it is complete. -/
def isAccepting (g : EGrammar) (x : EItem) : Bool :=
  (g.rule x.rule).implements == g.root && x.position == 0 && (x.nextSymbol g).isNone

/-- The scan of Go `matcher.matches` over `state[1:]`: the first index `i`
(from the given index list, in order) with `state[i+1]` empty. -/
def firstEmpty (st : EState) : List Nat → Option Nat
  | [] => none
  | i :: is => if (getSet st (i + 1)).isEmpty then some i else firstEmpty st is

/-- Go `matcher.matches`: when the last set is empty, return
`ErrUnexpectedToken` at the first empty set among positions `1..N`; otherwise
`nil` exactly when the last set holds an accepting item, else
`ErrUnexpectedEOF`. -/
def matchesE (g : EGrammar) (toks : List ETok) (st : EState) : Option RunErr :=
  match (if (getSet st (st.length - 1)).isEmpty then
          firstEmpty st (List.range (st.length - 1))
         else none) with
  | some i => some (.unexpectedToken ((toks[i]?).getD { ttype := 0, payload := 0 }))
  | none =>
    if (getSet st (st.length - 1)).any (isAccepting g) then none
    else some .unexpectedEOF

/-- Go `matcher.run`: the chart construction followed by `matches`; `none`
models fuel exhaustion (never the Go program, which always terminates
here). -/
def runE (g : EGrammar) (toks : List ETok) (fuel : Nat) : Option (Option RunErr) :=
  (runState g toks fuel).map (matchesE g toks)

/-! ## The derivation builder (Go `builder`) -/

/-- Go `matcher.flipState`: for every complete item of set `i`, record in
entry `x.position` of the flipped chart an item whose `position` field now
holds the end position `i`. -/
def flipState (g : EGrammar) (st : EState) : EState :=
  st.enum.foldl
    (fun acc p =>
      p.2.foldl
        (fun acc x =>
          if (x.nextSymbol g).isNone then
            updateAt x.position
              (fun l => l ++ [{ rule := x.rule, position := p.1, progress := x.progress }]) acc
          else acc)
        acc)
    (List.replicate st.length [])

/-- The comparator of Go `matcher.builder`: rule index ascending, ties by end
position ascending (`a.rule.Index - b.rule.Index`, then
`a.position - b.position`). -/
def flipLE (g : EGrammar) (a b : EItem) : Bool :=
  (g.rule a.rule).ruleIndex < (g.rule b.rule).ruleIndex ||
    ((g.rule a.rule).ruleIndex == (g.rule b.rule).ruleIndex && a.position ≤ b.position)

/-- Insertion step of the sort applied to each flipped entry. -/
def insertSorted (g : EGrammar) (x : EItem) : List EItem → List EItem
  | [] => [x]
  | y :: ys => if flipLE g x y then x :: y :: ys else y :: insertSorted g x ys

/-- The sort of Go `matcher.builder` (`slices.SortFunc` with `flipLE`; the
algorithm is immaterial since any order consistent with the comparator gives
the same candidate lists). -/
def sortItems (g : EGrammar) : List EItem → List EItem
  | [] => []
  | x :: xs => insertSorted g x (sortItems g xs)

/-- Go `matcher.builder`: the flipped chart with each entry sorted. -/
def builderState (g : EGrammar) (st : EState) : EState :=
  (flipState g st).map (sortItems g)

/-- Embeds the Go `span` struct.  `tokv` is a span whose `value` field is a
captured token (Go tests `s.value.IsValid()`); `node` carries the item, the
start offset and the child spans. -/
inductive ESpan where
  | node (item : EItem) (start : Nat) (children : List ESpan)
  | tokv (value : ETok) (start : Nat)
deriving Repr

-- Each builder search function returns `none` when the fuel ran out
-- (modelling nontermination of the Go recursion), `some none` for Go's
-- `ok == false`, and `some (some _)` for a found span.
mutual

/-- Go `builder.findSpan`: find child spans covering the rule's deps from
`start` to the item's recorded end. -/
def findSpanF (g : EGrammar) (b : EState) (seen : List ETok) :
    Nat → EItem → Nat → Option (Option ESpan)
  | 0, _, _ => none
  | fuel + 1, x, start =>
    match findSpanChildrenF g b seen fuel (g.rule x.rule).deps start x.position with
    | none => none
    | some none => some none
    | some (some children) => some (some (.node x start children))
termination_by structural fuel x start => fuel

/-- Go `builder.findSpanChildren`: empty deps succeed iff the offsets meet;
otherwise dispatch on whether the first dep is a terminal. -/
def findSpanChildrenF (g : EGrammar) (b : EState) (seen : List ETok) :
    Nat → List Nat → Nat → Nat → Option (Option (List ESpan))
  | 0, _, _, _ => none
  | _ + 1, [], start, stop => some (if start = stop then some [] else none)
  | fuel + 1, d :: rest, start, stop =>
    if g.isTok d then tokenSpanF g b seen fuel (d :: rest) start stop
    else ruleSpanF g b seen fuel (d :: rest) start stop (getSet b start)
termination_by structural fuel deps start stop => fuel

/-- Go `builder.ruleSpan`: walk the (sorted) candidates of the flipped chart
at `start`; for the first candidate implementing the dep whose remaining
children and own span both resolve, return; otherwise keep trying. -/
def ruleSpanF (g : EGrammar) (b : EState) (seen : List ETok) :
    Nat → List Nat → Nat → Nat → List EItem → Option (Option (List ESpan))
  | 0, _, _, _, _ => none
  | _ + 1, _, _, _, [] => some none
  | _ + 1, [], _, _, _ => some none
  | fuel + 1, d :: rest, start, stop, found :: cands =>
    if (g.rule found.rule).implements == d then
      match findSpanChildrenF g b seen fuel rest found.position stop with
      | none => none
      | some none => ruleSpanF g b seen fuel (d :: rest) start stop cands
      | some (some next) =>
        match findSpanF g b seen fuel found start with
        | none => none
        | some none => ruleSpanF g b seen fuel (d :: rest) start stop cands
        | some (some inner) => some (some (inner :: next))
    else ruleSpanF g b seen fuel (d :: rest) start stop cands
termination_by structural fuel deps start stop cands => fuel

/-- Go `builder.tokenSpan`: consume the token at `start` when its type is
assignable to the terminal dep, then resolve the remaining deps. -/
def tokenSpanF (g : EGrammar) (b : EState) (seen : List ETok) :
    Nat → List Nat → Nat → Nat → Option (Option (List ESpan))
  | 0, _, _, _ => none
  | _ + 1, [], _, _ => some none
  | fuel + 1, d :: rest, start, stop =>
    if h : start < seen.length then
      if g.tokMatches (seen.get ⟨start, h⟩).ttype d then
        match findSpanChildrenF g b seen fuel rest (start + 1) stop with
        | none => none
        | some none => some none
        | some (some next) => some (some (.tokv (seen.get ⟨start, h⟩) start :: next))
      else some none
    else some none
termination_by structural fuel deps start stop => fuel

end

/-- Go `builder.buildFromSpan`, lifted to a list of sibling spans and fueled
so that it evaluates in the kernel: token spans yield the captured token;
node spans evaluate their children left to right and apply the rule's
action.  The grammars under verification have single-result actions, so the
action-error branch of the Go code is not taken and actions are embedded as
total functions.  `none` only on fuel exhaustion. -/
def buildSpansF (g : EGrammar) : Nat → List ESpan → Option (List Val)
  | 0, _ => none
  | _ + 1, [] => some []
  | fuel + 1, sp :: rest =>
    match (match sp with
      | .tokv t _ => some (Val.tok t)
      | .node x _ children => (buildSpansF g fuel children).map (g.action x.rule)) with
    | none => none
    | some v =>
      match buildSpansF g fuel rest with
      | none => none
      | some vs => some (v :: vs)

/-- Go `builder.buildFromSpan` for a single span. -/
def buildValF (g : EGrammar) (fuel : Nat) (sp : ESpan) : Option Val :=
  match buildSpansF g fuel [sp] with
  | some (v :: _) => some v
  | _ => none

/-- The result of Go `builder.build`: either the evaluated value or
`ErrFailedMatch`. -/
inductive BuildRes where
  | value (v : Val)
  | failedMatch
deriving DecidableEq, Repr

/-- The loop of Go `builder.build` over the flipped entry at position 0: the
first item implementing the root with end position `len(seen)` is committed
to — a failing `findSpan` on it returns `ErrFailedMatch` without trying
later candidates. -/
def buildTops (g : EGrammar) (b : EState) (seen : List ETok) (fuel : Nat) :
    List EItem → Option BuildRes
  | [] => some .failedMatch
  | top :: rest =>
    if (g.rule top.rule).implements == g.root && top.position == seen.length then
      match findSpanF g b seen fuel top 0 with
      | none => none
      | some none => some .failedMatch
      | some (some sp) =>
        match buildValF g fuel sp with
        | none => none
        | some v => some (.value v)
    else buildTops g b seen fuel rest

/-- Go `matcher.builder().build()`: flip and sort the chart, then search from
the accepting top items. -/
def buildE (g : EGrammar) (st : EState) (seen : List ETok) (fuel : Nat) : Option BuildRes :=
  buildTops g (builderState g st) seen fuel (getSet (builderState g st) 0)

/-! ## Concrete grammars from the repository's tests and the spec's scenarios -/

/-- The S1 grammar `expr := int | expr '+' expr` as the scanner produces it
from `interfaceGrammar` (methods `Int`, `Add`, start type the `expr`
interface).  Symbols: expr = 0, intTok = 1, intVal = 2, plusTok = 3, add = 4.
Rules 0 and 1 are the `Int` (method index 1) and `Add` (method index 0)
productions; rules 2 and 3 are their copies onto the `expr` interface made by
`fillOutInterfaces` (sharing the method index and `Method`). -/
def g5 : EGrammar where
  rules := [⟨2, [1], 1⟩, ⟨4, [0, 3, 0], 0⟩, ⟨0, [1], 1⟩, ⟨0, [0, 3, 0], 0⟩]
  preds
    | 0 => [2, 3]
    | 2 => [0]
    | 4 => [1]
    | _ => []
  nullable _ := false
  isTok | 1 => true | 3 => true | _ => false
  tokMatches t s := t == s
  root := 0
  action
    | 0, [.tok t] => .vint t.payload
    | 2, [.tok t] => .vint t.payload
    | 1, [l, _, r] => .vadd l r
    | 3, [l, _, r] => .vadd l r
    | _, _ => .vempty

/-- The S1 input `[int(1), '+', int(2), '+', int(3)]`. -/
def toks5 : List ETok := [⟨1, 1⟩, ⟨3, 0⟩, ⟨1, 2⟩, ⟨3, 0⟩, ⟨1, 3⟩]

/-- The S2 input `[int(1), '+', int(2), '+', '+', int(3)]`. -/
def toks5b : List ETok := [⟨1, 1⟩, ⟨3, 0⟩, ⟨1, 2⟩, ⟨3, 0⟩, ⟨3, 0⟩, ⟨1, 3⟩]

/-- A grammar whose scan yields the productions `A → ε` (method name before
the other alphabetically reversed, method index 1) and `A → A` (method index
0), start symbol A = 0 — e.g. a rule object with methods
`ME() A` and `MA(x A) A`.  `A` is nullable. -/
def g3 : EGrammar where
  rules := [⟨0, [], 1⟩, ⟨0, [0], 0⟩]
  preds | 0 => [0, 1] | _ => []
  nullable | 0 => true | _ => false
  isTok _ := false
  tokMatches _ _ := false
  root := 0
  action | _, _ => .vempty

/-- Appends an element to a `vcons` chain, as `reflect.Append` does for the
slice append rule of `scanner.sliceTypeSymbol`. -/
def Val.snoc : Val → Val → Val
  | .vnil, x => .vcons x .vnil
  | .vcons h t, x => .vcons h (Val.snoc t x)
  | v, _ => v

/-- The `ParseInts` action of the S3 grammar: converts a slice of `intTok`
tokens to the slice of their integer payloads. -/
def Val.toksToInts : Val → Val
  | .vnil => .vnil
  | .vcons (.tok t) rest => .vcons (.vint t.payload) (Val.toksToInts rest)
  | v => v

/-- The S3 grammar (`sliceRuleset`): `ParseInts(ints []intTok) intList` with
start type `intList`.  Symbols: intList = 0, the synthesized slice symbol
[]intTok = 1, intTok = 2.  Rules 0 and 1 are the two slice productions
synthesized by `scanner.sliceTypeSymbol` (method index -1): the nil rule and
the append rule; rule 2 is `ParseInts` (method index 1). -/
def g6 : EGrammar where
  rules := [⟨1, [], -1⟩, ⟨1, [1, 2], -1⟩, ⟨0, [1], 1⟩]
  preds | 1 => [0, 1] | 0 => [2] | _ => []
  nullable | 0 => true | 1 => true | _ => false
  isTok | 2 => true | _ => false
  tokMatches t s := t == s
  root := 0
  action
    | 0, [] => .vnil
    | 1, [xs, x] => Val.snoc xs x
    | 2, [xs] => Val.toksToInts xs
    | _, _ => .vempty

/-- `n` consecutive `intTok` tokens with the given payloads. -/
def toks6 (ps : List Int) : List ETok := ps.map fun p => ⟨2, p⟩

/-- The chart `matcher.run` builds for `g5` on `toks5` (checked below against
`runState`). -/
def chart5 : EState :=
  [[⟨2, 0, 0⟩, ⟨3, 0, 0⟩],
   [⟨2, 0, 1⟩, ⟨3, 0, 1⟩],
   [⟨3, 0, 2⟩, ⟨2, 2, 0⟩, ⟨3, 2, 0⟩],
   [⟨2, 2, 1⟩, ⟨3, 0, 3⟩, ⟨3, 2, 1⟩, ⟨3, 0, 1⟩],
   [⟨3, 2, 2⟩, ⟨3, 0, 2⟩, ⟨2, 4, 0⟩, ⟨3, 4, 0⟩],
   [⟨2, 4, 1⟩, ⟨3, 2, 3⟩, ⟨3, 0, 3⟩, ⟨3, 4, 1⟩, ⟨3, 2, 1⟩, ⟨3, 0, 1⟩]]

/-- The chart `matcher.run` builds for `g3` on the empty input: the complete
items `A → ε` (rule 0) and `A → A .` (rule 1) both at origin 0. -/
def chart3 : EState := [[⟨0, 0, 0⟩, ⟨1, 0, 0⟩, ⟨1, 0, 1⟩]]

/-- The flipped and sorted chart `matcher.builder` derives from `chart3`: the
self-recursive `A → A` completion (method index 0) sorts before the `A → ε`
completion (method index 1). -/
def flip3 : EState := [[⟨1, 0, 1⟩, ⟨0, 0, 0⟩]]

/-- The chart `matcher.run` builds for `g5` on the malformed input `toks5b`:
sets 5 and 6 are empty (the second consecutive `'+'` admits no item). -/
def chart5b : EState :=
  [[⟨2, 0, 0⟩, ⟨3, 0, 0⟩],
   [⟨2, 0, 1⟩, ⟨3, 0, 1⟩],
   [⟨3, 0, 2⟩, ⟨2, 2, 0⟩, ⟨3, 2, 0⟩],
   [⟨2, 2, 1⟩, ⟨3, 0, 3⟩, ⟨3, 2, 1⟩, ⟨3, 0, 1⟩],
   [⟨3, 2, 2⟩, ⟨3, 0, 2⟩, ⟨2, 4, 0⟩, ⟨3, 4, 0⟩],
   [], []]

/-! ## The regex front-end's character sets (regex.go) -/

/-- `unicode.MaxRune`. -/
def maxRune : Nat := 1114111

/-- Embeds the Go `match` struct of regex.go: an inclusive codepoint range
(`start`, `end`; the upper bound is named `stop` because `end` is reserved).
Codepoints are embedded as naturals (Go runes are non-negative here). -/
structure RMatch where
  start : Nat
  stop : Nat
deriving DecidableEq, Repr

/-- Insertion step of the sort in `charset.inverse` (`sort.Slice` by
`start`; ties are immaterial to the result). -/
def insertByStart (x : RMatch) : List RMatch → List RMatch
  | [] => [x]
  | y :: ys => if x.start ≤ y.start then x :: y :: ys else y :: insertByStart x ys

/-- The sort of `charset.inverse`. -/
def sortRanges : List RMatch → List RMatch
  | [] => []
  | x :: xs => insertByStart x (sortRanges xs)

/-- The loop body of `charset.inverse`: skip empty ranges, emit the gap below
the range, bump `last` past the range. -/
def inverseStep (acc : List RMatch × Nat) (r : RMatch) : List RMatch × Nat :=
  if r.stop < r.start then acc
  else
    let res := if r.start > acc.2 then acc.1 ++ [⟨acc.2, r.start - 1⟩] else acc.1
    let last := if r.stop ≥ acc.2 then r.stop + 1 else acc.2
    (res, last)

/-- Go `charset.inverse` (regex.go): sort the ranges by start, emit the gaps,
and close with `[last, MaxRune]` only when `last < MaxRune`. -/
def charsetInverse (s : List RMatch) : List RMatch :=
  let acc := (sortRanges s).foldl inverseStep ([], 0)
  if acc.2 < maxRune then acc.1 ++ [⟨acc.2, maxRune⟩] else acc.1

/-- A codepoint is covered by some range of the list. -/
def coversB (rs : List RMatch) (c : Nat) : Bool :=
  rs.any fun r => r.start ≤ c && c ≤ r.stop

/-! ## The NFA lexer (lexer.go) -/

/-- Go `closeTransition`: entering `Given` also enters `Then`. -/
structure CloseTransition where
  Given : Nat
  Then : Nat
deriving DecidableEq, Repr

/-- Go `moveTransition`: reading a rune in `[Min, Max]` while in `Given`
enters `Then`. Runes are embedded as naturals. -/
structure MoveTransition where
  Given : Nat
  Then : Nat
  Min : Nat
  Max : Nat
deriving DecidableEq, Repr

/-- Go `finalState[T]`: `Then` is the token constructor
`(start, text) -> (T, error)`; `none` embeds a non-nil error. The text is a
list of runes. -/
structure FinalState (T : Type) where
  Given : Nat
  Then : Nat → List Nat → Option T

/-- Go `Lexer[T]`. -/
structure ELexer (T : Type) where
  closeTransitions : List CloseTransition
  moveTransitions : List MoveTransition
  finalStates : List (FinalState T)
  maxState : Nat

/-- Go `Stream[T]`. `src` is the input as a list of runes, each of width one
(faithful for the single-byte inputs considered here). `thisv` embeds the
Go field `this` (the live-state bit vector); the `next` buffer is cleared at
the top of every loop iteration in Go, so it is recreated per step here.
`tok` is the last token (`none` before any, and after a constructor error);
`err` embeds the sticky non-nil error state. -/
structure EStream (T : Type) where
  src : List Nat
  srcPos : Nat
  thisv : List Bool
  tok : Option T
  err : Bool
deriving DecidableEq, Repr

/-- Read bit `i` of a state vector (in the source all indices are in
bounds, so the default is never consulted). -/
def getB (v : List Bool) (i : Nat) : Bool :=
  (v[i]?).getD false

/-- Go `Stream.closeState`: sequentially apply the empty transitions; later
transitions observe bits set by earlier ones, exactly as the Go loop does. -/
def closeState {T : Type} (L : ELexer T) (v : List Bool) : List Bool :=
  L.closeTransitions.foldl
    (fun acc op => if getB acc op.Given then acc.set op.Then true else acc) v

/-- One step of Go `Stream.detectFinal`, for the final state with
declaration index `p.1`: record `(index, pos)` when the state is live and
either `pos` beats the recorded end or ties it with a lower index.
`acc = (final, end)` with `final : Int` (`-1` means none yet). -/
def detectStep {T : Type} (v : List Bool) (pos : Nat) (acc : Int × Nat)
    (p : Nat × FinalState T) : Int × Nat :=
  if getB v p.2.Given then
    if pos > acc.2 ∨ (pos = acc.2 ∧ (p.1 : Int) < acc.1) then ((p.1 : Int), pos)
    else acc
  else acc

/-- Go `Stream.detectFinal`: fold `detectStep` over the indexed final
states. -/
def detectFinal {T : Type} (L : ELexer T) (v : List Bool) (pos : Nat)
    (acc : Int × Nat) : Int × Nat :=
  L.finalStates.enum.foldl (detectStep v pos) acc

/-- Go `Stream.moveState`: starting from the cleared `next` buffer, set the
targets of the enabled move transitions; the second component is the
`running` flag, set exactly when some transition fires. -/
def moveState {T : Type} (L : ELexer T) (v : List Bool) (c : Nat) :
    List Bool × Bool :=
  L.moveTransitions.foldl
    (fun acc op =>
      if getB v op.Given then
        if c < op.Min ∨ op.Max < c then acc
        else (acc.1.set op.Then true, true)
      else acc)
    (List.replicate v.length false, false)

/-- The loop of Go `Stream.exec`, recursing structurally on the input not
yet scanned (`rem = src.drop pos`). Returns the final `this` vector together
with `(final, end)`. On the `pos >= len(src)` break path there is no buffer
swap, so `this` keeps the closed live set; on the not-`running` exit path the
swap has happened, so `this` becomes the freshly written `next` buffer. -/
def execLoop {T : Type} (L : ELexer T) :
    List Nat → List Bool → Int → Nat → Nat → List Bool × Int × Nat
  | [], v, final, endP, pos =>
    let v2 := closeState L v
    (v2, detectFinal L v2 pos (final, endP))
  | c :: rem, v, final, endP, pos =>
    let v2 := closeState L v
    let fe := detectFinal L v2 pos (final, endP)
    let mv := moveState L v2 c
    if mv.2 then execLoop L rem mv.1 fe.1 fe.2 (pos + 1)
    else (mv.1, fe)

/-- Go `Stream.exec`: set bit 0, run the machine from `srcPos`, then
dispatch on the recorded final state. On success `srcPos` moves to `end` and
the token is built from `src[start:end]`; a constructor error sets the
sticky `err` flag and still advances `srcPos`. -/
def execE {T : Type} (L : ELexer T) (s : EStream T) : Bool × EStream T :=
  let r := execLoop L (s.src.drop s.srcPos) (s.thisv.set 0 true) (-1)
    s.srcPos s.srcPos
  if r.2.1 < 0 then (false, { s with thisv := r.1 })
  else
    match L.finalStates[r.2.1.toNat]? with
    | none => (false, { s with thisv := r.1 })
    | some op =>
      match op.Then s.srcPos ((s.src.drop s.srcPos).take (r.2.2 - s.srcPos)) with
      | some t => (true, { s with thisv := r.1, srcPos := r.2.2, tok := some t })
      | none =>
        (false, { s with thisv := r.1, srcPos := r.2.2, tok := none, err := true })

/-- Go `Stream.Next`: the error state is permanent. -/
def nextE {T : Type} (L : ELexer T) (s : EStream T) : Bool × EStream T :=
  if s.err then (false, s) else execE L s

/-- Go `Lexer.Tokenize`. -/
def tokenizeE {T : Type} (L : ELexer T) (src : List Nat) : EStream T :=
  { src := src, srcPos := 0, thisv := List.replicate (L.maxState + 1) false,
    tok := none, err := false }

/-- Go `Stream.Force`, with fuel bounding the number of `Next` calls:
collect tokens while `Next` succeeds, then report the error flag. -/
def forceF {T : Type} (L : ELexer T) : Nat → EStream T → Option (List T × Bool)
  | 0, _ => none
  | fuel + 1, s =>
    match nextE L s with
    | (false, s2) => some ([], s2.err)
    | (true, s2) =>
      match forceF L fuel s2 with
      | none => none
      | some r => some (s2.tok.toList ++ r.1, r.2)

/-- Reference semantics for the specification's scanning protocol: the set
of states the machine reaches from a fresh start (bit 0 set, then closed)
after scanning `k` runes of `src` beginning at `start`. -/
def specLive {T : Type} (L : ELexer T) (src : List Nat) (start : Nat) :
    Nat → List Bool
  | 0 => closeState L ((List.replicate (L.maxState + 1) false).set 0 true)
  | k + 1 =>
    closeState L (moveState L (specLive L src start k) (src.getD (start + k) 0)).1

/-- Reference semantics: some final state is live after scanning `k` runes
of `src` from `start`. -/
def specFinalLive {T : Type} (L : ELexer T) (src : List Nat) (start k : Nat) :
    Bool :=
  L.finalStates.any fun op => getB (specLive L src start k) op.Given

/-- The two-token lexer of the stale-state scenario: token 1 is `a`
(move 0-1 on `a`, state 1 final with index 0), token 2 is `abb`
(moves 0-2 on `a`, 2-3 and 3-4 on `b`, state 4 final with index 1). -/
def L7 : ELexer Nat where
  closeTransitions := []
  moveTransitions := [⟨0, 1, 97, 97⟩, ⟨0, 2, 97, 97⟩, ⟨2, 3, 98, 98⟩, ⟨3, 4, 98, 98⟩]
  finalStates := [⟨1, fun _ _ => some 1⟩, ⟨4, fun _ _ => some 2⟩]
  maxState := 4

/-- The stream after the first `Next` on input `ab`: token 1 (`a`) was
emitted, and `this` still holds the live state 3 reached while scanning
ahead (the break path performs no swap and nothing clears it). -/
def stream71 : EStream Nat :=
  { src := [97, 98], srcPos := 1, thisv := [false, false, false, true, false],
    tok := some 1, err := false }

/-- The stream after the second `Next`: the stale state 3 moved to the final
state 4 on `b`, so token 2 was emitted for the text `b`. -/
def stream72 : EStream Nat :=
  { src := [97, 98], srcPos := 2, thisv := [false, false, false, false, true],
    tok := some 2, err := false }

/-! ## The regex front-end's token lexer and grammar (regex.go) -/

/-- The regex token lexer `regexProg` (the `init` function of regex.go),
with tokens embedded as `ETok` tagged by the grammar symbol numbers used in
`gRx` below: char = 5 (payload: the rune), charsetRange = 6, dot = 7,
slash = 8 (payload: the escaped rune), quantity = 9 (payload: the rune),
bar = 10, groupOpen = 11, groupClose = 12, charsetOpen = 13,
charsetClose = 14, charsetInvert = 15.  States and transitions are laid out
in the construction order of `init`: eight `singleCharOp`s allocate states
1..8 with finals 0..7, then `qEnd` = 9 (final 8), `escMid`/`escEnd` = 10/11
(final 9), `anyEnd` = 12 (final 10). -/
def regexProgE : ELexer ETok where
  closeTransitions := []
  moveTransitions :=
    [⟨0, 1, 91, 91⟩, ⟨0, 2, 93, 93⟩, ⟨0, 3, 45, 45⟩, ⟨0, 4, 94, 94⟩,
     ⟨0, 5, 40, 40⟩, ⟨0, 6, 41, 41⟩, ⟨0, 7, 124, 124⟩, ⟨0, 8, 46, 46⟩,
     ⟨0, 9, 42, 42⟩, ⟨0, 9, 63, 63⟩, ⟨0, 9, 43, 43⟩,
     ⟨0, 10, 92, 92⟩, ⟨10, 11, 32, 126⟩,
     ⟨0, 12, 32, 126⟩]
  finalStates :=
    [⟨1, fun _ _ => some ⟨13, 0⟩⟩,
     ⟨2, fun _ _ => some ⟨14, 0⟩⟩,
     ⟨3, fun _ _ => some ⟨6, 0⟩⟩,
     ⟨4, fun _ _ => some ⟨15, 0⟩⟩,
     ⟨5, fun _ _ => some ⟨11, 0⟩⟩,
     ⟨6, fun _ _ => some ⟨12, 0⟩⟩,
     ⟨7, fun _ _ => some ⟨10, 0⟩⟩,
     ⟨8, fun _ _ => some ⟨7, 0⟩⟩,
     ⟨9, fun _ text => some ⟨9, ((text[0]?).getD 0 : Nat)⟩⟩,
     ⟨11, fun _ text => some ⟨8, ((text[1]?).getD 0 : Nat)⟩⟩,
     ⟨12, fun _ text => some ⟨5, ((text[0]?).getD 0 : Nat)⟩⟩]
  maxState := 12

/-- The grammar the scanner produces from `regexRules` with root type `expr`
(via the `NewParser[expr]` wrapper, whose own `Parse` method the scan
skips).  Symbols: expr = 0, run = 1, term = 2, choice = 3, charset = 4, and
the token types char = 5, charsetRange = 6, dot = 7, slash = 8,
quantity = 9, bar = 10, groupOpen = 11, groupClose = 12, charsetOpen = 13,
charsetClose = 14, charsetInvert = 15.

Rules 0..17 are the 18 exported `ParseX` methods, with `ruleIndex` their
alphabetical method rank (ParseChar = 0 .. ParseSeq = 17); `scanMethods`
walks them in reverse, so each symbol's `Predictions` list holds them in
reverse-alphabetical order.  `fillOutInterfaces` then copies: `run` receives
`term`'s 7 productions (rules 18..24, in `term`'s prediction order), and
`expr` receives `run`'s 9 (rules 25..33), `term`'s 7 (rules 34..40) and
`choice`'s 2 (rules 41..42), each copy keeping the original's `ruleIndex`
and `Method`.  The interface-copy order across source types follows one
fixed iteration order of Go's randomized type map — the parse value is
insensitive to that choice because duplicate copies share `ruleIndex`,
`Deps` and `Method`.  Actions are embedded for every rule reachable on
class-free patterns; rules only reachable inside `[...]` classes (and the
`escMap` branch of `ParseEscaped`) act as `vempty`, which no claim here
exercises. -/
def gRx : EGrammar where
  rules :=
    [⟨2, [5], 0⟩,              -- 0  ParseChar
     ⟨2, [13, 4, 14], 1⟩,      -- 1  ParseCharset
     ⟨4, [10], 2⟩,             -- 2  ParseCharsetBar
     ⟨4, [5], 3⟩,              -- 3  ParseCharsetChar
     ⟨4, [4, 4], 4⟩,           -- 4  ParseCharsetChoice
     ⟨4, [7], 5⟩,              -- 5  ParseCharsetDot
     ⟨4, [8], 6⟩,              -- 6  ParseCharsetEsc
     ⟨4, [9], 7⟩,              -- 7  ParseCharsetQuantity
     ⟨4, [5, 6, 5], 8⟩,        -- 8  ParseCharsetRange
     ⟨3, [1, 10, 1], 9⟩,       -- 9  ParseChoice
     ⟨2, [7], 10⟩,             -- 10 ParseDot
     ⟨2, [8], 11⟩,             -- 11 ParseEscaped
     ⟨2, [11, 0, 12], 12⟩,     -- 12 ParseGroup
     ⟨2, [13, 15, 4, 14], 13⟩, -- 13 ParseInverseCharset
     ⟨3, [3, 10, 1], 14⟩,      -- 14 ParseMoreChoice
     ⟨1, [2, 9], 15⟩,          -- 15 ParseQuantifier
     ⟨2, [6], 16⟩,             -- 16 ParseRange
     ⟨1, [1, 1], 17⟩,          -- 17 ParseSeq
     ⟨1, [6], 16⟩,             -- 18 run copy of ParseRange
     ⟨1, [13, 15, 4, 14], 13⟩, -- 19 run copy of ParseInverseCharset
     ⟨1, [11, 0, 12], 12⟩,     -- 20 run copy of ParseGroup
     ⟨1, [8], 11⟩,             -- 21 run copy of ParseEscaped
     ⟨1, [7], 10⟩,             -- 22 run copy of ParseDot
     ⟨1, [13, 4, 14], 1⟩,      -- 23 run copy of ParseCharset
     ⟨1, [5], 0⟩,              -- 24 run copy of ParseChar
     ⟨0, [1, 1], 17⟩,          -- 25 expr copy of ParseSeq
     ⟨0, [2, 9], 15⟩,          -- 26 expr copy of ParseQuantifier
     ⟨0, [6], 16⟩,             -- 27 expr copy (via run) of ParseRange
     ⟨0, [13, 15, 4, 14], 13⟩, -- 28 expr copy (via run) of ParseInverseCharset
     ⟨0, [11, 0, 12], 12⟩,     -- 29 expr copy (via run) of ParseGroup
     ⟨0, [8], 11⟩,             -- 30 expr copy (via run) of ParseEscaped
     ⟨0, [7], 10⟩,             -- 31 expr copy (via run) of ParseDot
     ⟨0, [13, 4, 14], 1⟩,      -- 32 expr copy (via run) of ParseCharset
     ⟨0, [5], 0⟩,              -- 33 expr copy (via run) of ParseChar
     ⟨0, [6], 16⟩,             -- 34 expr copy of ParseRange
     ⟨0, [13, 15, 4, 14], 13⟩, -- 35 expr copy of ParseInverseCharset
     ⟨0, [11, 0, 12], 12⟩,     -- 36 expr copy of ParseGroup
     ⟨0, [8], 11⟩,             -- 37 expr copy of ParseEscaped
     ⟨0, [7], 10⟩,             -- 38 expr copy of ParseDot
     ⟨0, [13, 4, 14], 1⟩,      -- 39 expr copy of ParseCharset
     ⟨0, [5], 0⟩,              -- 40 expr copy of ParseChar
     ⟨0, [3, 10, 1], 14⟩,      -- 41 expr copy of ParseMoreChoice
     ⟨0, [1, 10, 1], 9⟩]       -- 42 expr copy of ParseChoice
  preds
    | 0 => [25, 26, 27, 28, 29, 30, 31, 32, 33, 34, 35, 36, 37, 38, 39, 40, 41, 42]
    | 1 => [17, 15, 18, 19, 20, 21, 22, 23, 24]
    | 2 => [16, 13, 12, 11, 10, 1, 0]
    | 3 => [14, 9]
    | 4 => [8, 7, 6, 5, 4, 3, 2]
    | _ => []
  nullable _ := false
  isTok s := decide (5 ≤ s ∧ s ≤ 15)
  tokMatches t s := t == s
  root := 0
  action
    | 0, [.tok t] => .vmatch t.payload t.payload
    | 24, [.tok t] => .vmatch t.payload t.payload
    | 33, [.tok t] => .vmatch t.payload t.payload
    | 40, [.tok t] => .vmatch t.payload t.payload
    | 16, _ => .vmatch 45 45
    | 18, _ => .vmatch 45 45
    | 27, _ => .vmatch 45 45
    | 34, _ => .vmatch 45 45
    | 10, _ => .vmatch 0 1114111
    | 22, _ => .vmatch 0 1114111
    | 31, _ => .vmatch 0 1114111
    | 38, _ => .vmatch 0 1114111
    | 11, [.tok t] => .vmatch t.payload t.payload
    | 21, [.tok t] => .vmatch t.payload t.payload
    | 30, [.tok t] => .vmatch t.payload t.payload
    | 37, [.tok t] => .vmatch t.payload t.payload
    | 17, [l, r] => .vseq l r
    | 25, [l, r] => .vseq l r
    | 12, [_, e, _] => .vnest e
    | 20, [_, e, _] => .vnest e
    | 29, [_, e, _] => .vnest e
    | 36, [_, e, _] => .vnest e
    | 9, [l, _, r] => .vchoice l r
    | 42, [l, _, r] => .vchoice l r
    | 14, [l, _, r] => .vchoice l r
    | 41, [l, _, r] => .vchoice l r
    | _, _ => .vempty

/-- The token sequence `regexProg` produces for the pattern `a-c`:
char(a), charsetRange, char(c). -/
def toksRx : List ETok := [⟨5, 97⟩, ⟨6, 0⟩, ⟨5, 99⟩]

/-- The chart `matcher.run` builds for `gRx` on `toksRx` (checked below
against `runState`). -/
def chartRx : EState :=
  [[⟨25, 0, 0⟩, ⟨26, 0, 0⟩, ⟨27, 0, 0⟩, ⟨28, 0, 0⟩, ⟨29, 0, 0⟩, ⟨30, 0, 0⟩,
    ⟨31, 0, 0⟩, ⟨32, 0, 0⟩, ⟨33, 0, 0⟩, ⟨34, 0, 0⟩, ⟨35, 0, 0⟩, ⟨36, 0, 0⟩,
    ⟨37, 0, 0⟩, ⟨38, 0, 0⟩, ⟨39, 0, 0⟩, ⟨40, 0, 0⟩, ⟨41, 0, 0⟩, ⟨42, 0, 0⟩,
    ⟨17, 0, 0⟩, ⟨15, 0, 0⟩, ⟨18, 0, 0⟩, ⟨19, 0, 0⟩, ⟨20, 0, 0⟩, ⟨21, 0, 0⟩,
    ⟨22, 0, 0⟩, ⟨23, 0, 0⟩, ⟨24, 0, 0⟩, ⟨16, 0, 0⟩, ⟨13, 0, 0⟩, ⟨12, 0, 0⟩,
    ⟨11, 0, 0⟩, ⟨10, 0, 0⟩, ⟨1, 0, 0⟩, ⟨0, 0, 0⟩, ⟨14, 0, 0⟩, ⟨9, 0, 0⟩],
   [⟨33, 0, 1⟩, ⟨40, 0, 1⟩, ⟨24, 0, 1⟩, ⟨0, 0, 1⟩, ⟨25, 0, 1⟩, ⟨42, 0, 1⟩,
    ⟨17, 0, 1⟩, ⟨9, 0, 1⟩, ⟨26, 0, 1⟩, ⟨15, 0, 1⟩, ⟨17, 1, 0⟩, ⟨15, 1, 0⟩,
    ⟨18, 1, 0⟩, ⟨19, 1, 0⟩, ⟨20, 1, 0⟩, ⟨21, 1, 0⟩, ⟨22, 1, 0⟩, ⟨23, 1, 0⟩,
    ⟨24, 1, 0⟩, ⟨16, 1, 0⟩, ⟨13, 1, 0⟩, ⟨12, 1, 0⟩, ⟨11, 1, 0⟩, ⟨10, 1, 0⟩,
    ⟨1, 1, 0⟩, ⟨0, 1, 0⟩],
   [⟨18, 1, 1⟩, ⟨16, 1, 1⟩, ⟨25, 0, 2⟩, ⟨17, 0, 2⟩, ⟨17, 1, 1⟩, ⟨15, 1, 1⟩,
    ⟨25, 0, 1⟩, ⟨42, 0, 1⟩, ⟨17, 0, 1⟩, ⟨9, 0, 1⟩, ⟨17, 2, 0⟩, ⟨15, 2, 0⟩,
    ⟨18, 2, 0⟩, ⟨19, 2, 0⟩, ⟨20, 2, 0⟩, ⟨21, 2, 0⟩, ⟨22, 2, 0⟩, ⟨23, 2, 0⟩,
    ⟨24, 2, 0⟩, ⟨16, 2, 0⟩, ⟨13, 2, 0⟩, ⟨12, 2, 0⟩, ⟨11, 2, 0⟩, ⟨10, 2, 0⟩,
    ⟨1, 2, 0⟩, ⟨0, 2, 0⟩],
   [⟨24, 2, 1⟩, ⟨0, 2, 1⟩, ⟨17, 1, 2⟩, ⟨25, 0, 2⟩, ⟨17, 0, 2⟩, ⟨17, 2, 1⟩,
    ⟨15, 2, 1⟩, ⟨17, 1, 1⟩, ⟨25, 0, 1⟩, ⟨42, 0, 1⟩, ⟨17, 0, 1⟩, ⟨9, 0, 1⟩]]

/-! ## Invariant predicates over charts -/

/-- `st'` extends `st` set-wise: same number of sets, and every set of `st'`
is the corresponding set of `st` with items appended (the chart is
append-only). -/
def Grows (st st' : EState) : Prop :=
  st'.length = st.length ∧ ∀ j, ∃ s, getSet st' j = getSet st j ++ s

/-- Emptiness propagates rightward: an empty set is followed only by empty
sets. -/
def TailEmpty (st : EState) : Prop :=
  ∀ k j, k ≤ j → j < st.length → getSet st k = [] → getSet st j = []

/-- Every chart item's progress is at most its rule's dependency count (so
Go's completeness test `progress == len(deps)` coincides with
`nextSymbol` returning nothing). -/
def WFItems (g : EGrammar) (st : EState) : Prop :=
  ∀ j, ∀ x ∈ getSet st j, x.progress ≤ (g.rule x.rule).deps.length

/-! ## Chart lemmas -/

theorem length_updateAt {α : Type} (f : α → α) :
    ∀ (n : Nat) (l : List α), (updateAt n f l).length = l.length
  | _, [] => by simp [updateAt]
  | 0, _ :: _ => by simp [updateAt]
  | n + 1, _ :: as => by simp [updateAt, length_updateAt f n as]

theorem getElem?_updateAt {α : Type} (f : α → α) :
    ∀ (n : Nat) (l : List α) (m : Nat),
      (updateAt n f l)[m]? = if m = n then (l[m]?).map f else l[m]?
  | _, [], m => by simp [updateAt]
  | 0, a :: as, 0 => by simp [updateAt]
  | 0, a :: as, m + 1 => by simp [updateAt]
  | n + 1, a :: as, 0 => by simp [updateAt]
  | n + 1, a :: as, m + 1 => by
    simp only [updateAt, List.getElem?_cons_succ, getElem?_updateAt f n as m]
    by_cases h : m = n <;> simp [h]

theorem length_addTo (pos : Nat) (x : EItem) (st : EState) :
    (addTo pos x st).length = st.length := by
  unfold addTo
  split
  · rfl
  · exact length_updateAt _ _ _

theorem getSet_addTo_ne {p pos : Nat} (h : p ≠ pos) (x : EItem) (st : EState) :
    getSet (addTo pos x st) p = getSet st p := by
  unfold addTo
  split
  · rfl
  · simp [getSet, getElem?_updateAt, h]

theorem getSet_addTo (pos : Nat) (x : EItem) (st : EState) :
    ∃ s, getSet (addTo pos x st) pos = getSet st pos ++ s := by
  unfold addTo
  split
  · exact ⟨[], by simp⟩
  · unfold getSet
    rw [getElem?_updateAt]
    simp only [if_pos rfl]
    cases hp : st[pos]? with
    | none => exact ⟨[], by simp [hp]⟩
    | some l => exact ⟨[x], by simp [hp]⟩

theorem grows_refl (st : EState) : Grows st st :=
  ⟨rfl, fun j => ⟨[], by simp⟩⟩

theorem grows_trans {s1 s2 s3 : EState} (h1 : Grows s1 s2) (h2 : Grows s2 s3) : Grows s1 s3 := by
  refine ⟨h2.1.trans h1.1, fun j => ?_⟩
  obtain ⟨a, ha⟩ := h1.2 j
  obtain ⟨b, hb⟩ := h2.2 j
  exact ⟨a ++ b, by rw [hb, ha, List.append_assoc]⟩

theorem grows_addTo (pos : Nat) (x : EItem) (st : EState) : Grows st (addTo pos x st) := by
  refine ⟨length_addTo pos x st, fun j => ?_⟩
  by_cases h : j = pos
  · subst h; exact getSet_addTo j x st
  · exact ⟨[], by rw [getSet_addTo_ne h, List.append_nil]⟩

theorem grows_foldl {β : Type} (f : EState → β → EState) (hf : ∀ st b, Grows st (f st b)) :
    ∀ (l : List β) (st : EState), Grows st (l.foldl f st)
  | [], st => grows_refl st
  | b :: l, st => grows_trans (hf st b) (grows_foldl f hf l (f st b))

theorem grows_predict (g : EGrammar) (cur s : Nat) (st : EState) :
    Grows st (predict g cur s st) :=
  grows_foldl _ (fun st _ => grows_addTo cur _ st) _ st

theorem grows_completeItem (g : EGrammar) (cur : Nat) (x : EItem) (st : EState) :
    Grows st (completeItem g cur x st) := by
  unfold completeItem
  refine grows_foldl _ (fun st y => ?_) _ st
  cases y.nextSymbol g with
  | none => exact grows_refl st
  | some nx =>
    simp only
    split
    · exact grows_addTo _ _ _
    · exact grows_refl st

theorem grows_processStepItem (g : EGrammar) (tok : ETok) (cur : Nat) (x : EItem)
    (st : EState) : Grows st (processStepItem g tok cur x st) := by
  unfold processStepItem
  cases x.nextSymbol g with
  | none => exact grows_completeItem g cur x st
  | some nx =>
    simp only
    split
    · split
      · exact grows_addTo _ _ _
      · exact grows_refl st
    · refine grows_trans ?_ (grows_predict g cur nx _)
      split
      · exact grows_addTo _ _ _
      · exact grows_refl st

theorem grows_processFinalItem (g : EGrammar) (cur : Nat) (x : EItem) (st : EState) :
    Grows st (processFinalItem g cur x st) := by
  unfold processFinalItem
  cases x.nextSymbol g with
  | none => exact grows_completeItem g cur x st
  | some nx =>
    simp only
    split
    · exact grows_trans (grows_addTo _ _ _) (grows_predict g cur nx _)
    · exact grows_refl st

theorem grows_stepLoop (g : EGrammar) (tok : ETok) (cur : Nat) :
    ∀ (fuel i : Nat) (st st' : EState), stepLoop g tok cur fuel i st = some st' → Grows st st' := by
  intro fuel
  induction fuel with
  | zero =>
    intro i st st' h
    unfold stepLoop at h
    split at h
    · exact absurd h (by simp)
    · exact (Option.some_inj.mp h) ▸ grows_refl st
  | succ fuel ih =>
    intro i st st' h
    unfold stepLoop at h
    split at h
    · exact grows_trans (grows_processStepItem g tok cur _ st) (ih (i + 1) _ st' h)
    · exact (Option.some_inj.mp h) ▸ grows_refl st

theorem grows_finalLoop (g : EGrammar) (cur : Nat) :
    ∀ (fuel i : Nat) (st st' : EState), finalLoop g cur fuel i st = some st' → Grows st st' := by
  intro fuel
  induction fuel with
  | zero =>
    intro i st st' h
    unfold finalLoop at h
    split at h
    · exact absurd h (by simp)
    · exact (Option.some_inj.mp h) ▸ grows_refl st
  | succ fuel ih =>
    intro i st st' h
    unfold finalLoop at h
    split at h
    · exact grows_trans (grows_processFinalItem g cur _ st) (ih (i + 1) _ st' h)
    · exact (Option.some_inj.mp h) ▸ grows_refl st

theorem getSet_predict_ne (g : EGrammar) {p cur : Nat} (h : p ≠ cur) (s : Nat) :
    ∀ (l : List Nat) (st : EState),
      getSet ((l.foldl (fun acc r => addTo cur { rule := r, position := cur, progress := 0 } acc) st)) p =
        getSet st p
  | [], _ => rfl
  | r :: l, st => by
    rw [List.foldl_cons, getSet_predict_ne g h s l, getSet_addTo_ne h]

theorem getSet_completeItem_ne (g : EGrammar) {p cur : Nat} (h : p ≠ cur) (x : EItem)
    (st : EState) : getSet (completeItem g cur x st) p = getSet st p := by
  unfold completeItem
  generalize getSet st x.position = snap
  induction snap generalizing st with
  | nil => rfl
  | cons y l ih =>
    rw [List.foldl_cons]
    rw [ih]
    cases y.nextSymbol g with
    | none => rfl
    | some nx =>
      simp only
      split
      · rw [getSet_addTo_ne h]
      · rfl

theorem getSet_processStepItem_ne (g : EGrammar) (tok : ETok) {p cur : Nat}
    (h1 : p ≠ cur) (h2 : p ≠ cur + 1) (x : EItem) (st : EState) :
    getSet (processStepItem g tok cur x st) p = getSet st p := by
  unfold processStepItem
  cases x.nextSymbol g with
  | none => exact getSet_completeItem_ne g h1 x st
  | some nx =>
    simp only
    split
    · split
      · rw [getSet_addTo_ne h2]
      · rfl
    · rw [predict, getSet_predict_ne g h1 nx]
      split
      · rw [getSet_addTo_ne h1]
      · rfl

theorem getSet_processFinalItem_ne (g : EGrammar) {p cur : Nat} (h1 : p ≠ cur)
    (x : EItem) (st : EState) :
    getSet (processFinalItem g cur x st) p = getSet st p := by
  unfold processFinalItem
  cases x.nextSymbol g with
  | none => exact getSet_completeItem_ne g h1 x st
  | some nx =>
    simp only
    split
    · rw [predict, getSet_predict_ne g h1 nx, getSet_addTo_ne h1]
    · rfl

theorem getSet_stepLoop_ne (g : EGrammar) (tok : ETok) {p cur : Nat}
    (h1 : p ≠ cur) (h2 : p ≠ cur + 1) :
    ∀ (fuel i : Nat) (st st' : EState), stepLoop g tok cur fuel i st = some st' →
      getSet st' p = getSet st p := by
  intro fuel
  induction fuel with
  | zero =>
    intro i st st' h
    unfold stepLoop at h
    split at h
    · exact absurd h (by simp)
    · rw [← Option.some_inj.mp h]
  | succ fuel ih =>
    intro i st st' h
    unfold stepLoop at h
    split at h
    · rw [ih (i + 1) _ st' h, getSet_processStepItem_ne g tok h1 h2]
    · rw [← Option.some_inj.mp h]

theorem getSet_finalLoop_ne (g : EGrammar) {p cur : Nat} (h1 : p ≠ cur) :
    ∀ (fuel i : Nat) (st st' : EState), finalLoop g cur fuel i st = some st' →
      getSet st' p = getSet st p := by
  intro fuel
  induction fuel with
  | zero =>
    intro i st st' h
    unfold finalLoop at h
    split at h
    · exact absurd h (by simp)
    · rw [← Option.some_inj.mp h]
  | succ fuel ih =>
    intro i st st' h
    unfold finalLoop at h
    split at h
    · rw [ih (i + 1) _ st' h, getSet_processFinalItem_ne g h1]
    · rw [← Option.some_inj.mp h]

theorem stepLoop_empty (g : EGrammar) (tok : ETok) (cur fuel : Nat) (st : EState)
    (h : getSet st cur = []) : stepLoop g tok cur fuel 0 st = some st := by
  cases fuel <;> (unfold stepLoop; rw [h]; simp)

theorem finalLoop_empty (g : EGrammar) (cur fuel : Nat) (st : EState)
    (h : getSet st cur = []) : finalLoop g cur fuel 0 st = some st := by
  cases fuel <;> (unfold finalLoop; rw [h]; simp)

theorem getSet_append_lt {st l2 : EState} {j : Nat} (h : j < st.length) :
    getSet (st ++ l2) j = getSet st j := by
  unfold getSet
  rw [List.getElem?_append, if_pos h]

theorem getSet_append_nil (st : EState) : getSet (st ++ [[]]) st.length = [] := by
  unfold getSet
  rw [List.getElem?_append_right (le_refl _)]
  simp

theorem getSet_oob {st : EState} {j : Nat} (h : st.length ≤ j) : getSet st j = [] := by
  unfold getSet
  rw [List.getElem?_eq_none h]
  rfl

theorem tailEmpty_stepLoop (g : EGrammar) (tok : ETok) (cur fuel : Nat) (st st' : EState)
    (hlen : st.length = cur + 2) (hte : TailEmpty st)
    (h : stepLoop g tok cur fuel 0 st = some st') : TailEmpty st' := by
  by_cases hc : getSet st cur = []
  · rw [stepLoop_empty g tok cur fuel st hc] at h
    rw [← Option.some_inj.mp h]
    exact hte
  · have hg := grows_stepLoop g tok cur fuel 0 st st' h
    intro k j hkj hj hk
    rw [hg.1, hlen] at hj
    by_cases hkc : k ≤ cur
    · exfalso
      have hkne : getSet st k ≠ [] := fun he => hc (hte k cur hkc (by omega) he)
      obtain ⟨s, hs⟩ := hg.2 k
      rw [hs] at hk
      exact hkne (List.append_eq_nil.mp hk).1
    · have : j = k := by omega
      rw [this]
      exact hk

theorem tailEmpty_finalLoop (g : EGrammar) (cur fuel : Nat) (st st' : EState)
    (hlen : st.length = cur + 1) (hte : TailEmpty st)
    (h : finalLoop g cur fuel 0 st = some st') : TailEmpty st' := by
  by_cases hc : getSet st cur = []
  · rw [finalLoop_empty g cur fuel st hc] at h
    rw [← Option.some_inj.mp h]
    exact hte
  · have hg := grows_finalLoop g cur fuel 0 st st' h
    intro k j hkj hj hk
    rw [hg.1, hlen] at hj
    exfalso
    have hkc : k ≤ cur := by omega
    have hkne : getSet st k ≠ [] := fun he => hc (hte k cur hkc (by omega) he)
    obtain ⟨s, hs⟩ := hg.2 k
    rw [hs] at hk
    exact hkne (List.append_eq_nil.mp hk).1

theorem tailEmpty_append {st : EState} (hte : TailEmpty st) : TailEmpty (st ++ [[]]) := by
  intro k j hkj hj hk
  rw [List.length_append, List.length_singleton] at hj
  by_cases hjl : j < st.length
  · have hkl : k < st.length := lt_of_le_of_lt hkj hjl
    rw [getSet_append_lt hkl] at hk
    rw [getSet_append_lt hjl]
    exact hte k j hkj hjl hk
  · have hj' : j = st.length := by omega
    rw [hj']
    exact getSet_append_nil st

theorem runLoop_tailEmpty (g : EGrammar) (fuel : Nat) :
    ∀ (ts : List ETok) (cur : Nat) (st st' : EState),
      st.length = cur + 1 → TailEmpty st → runLoop g fuel ts cur st = some st' →
      TailEmpty st' ∧ st'.length = cur + 1 + ts.length := by
  intro ts
  induction ts with
  | nil =>
    intro cur st st' hlen hte h
    rw [runLoop] at h
    refine ⟨tailEmpty_finalLoop g cur fuel st st' hlen hte h, ?_⟩
    rw [(grows_finalLoop g cur fuel 0 st st' h).1, hlen, List.length_nil]
  | cons t ts ih =>
    intro cur st st' hlen hte h
    rw [runLoop] at h
    cases hs : stepLoop g t cur fuel 0 (st ++ [[]]) with
    | none => rw [hs] at h; exact absurd h (by simp)
    | some st2 =>
      rw [hs] at h
      simp only at h
      have hlen2 : (st ++ [[]]).length = cur + 2 := by simp [hlen]
      have hte3 := tailEmpty_stepLoop g t cur fuel (st ++ [[]]) st2 hlen2 (tailEmpty_append hte) hs
      have hlen3 : st2.length = cur + 2 :=
        (grows_stepLoop g t cur fuel 0 (st ++ [[]]) st2 hs).1.trans hlen2
      obtain ⟨h1, h2⟩ := ih (cur + 1) st2 st' (by omega) hte3 h
      refine ⟨h1, by rw [h2]; simp; omega⟩

theorem length_initState (g : EGrammar) : (predict g 0 g.root [[]]).length = 1 :=
  (grows_predict g 0 g.root [[]]).1

theorem tailEmpty_initState (g : EGrammar) : TailEmpty (predict g 0 g.root [[]]) := by
  intro k j hkj hj hk
  rw [length_initState] at hj
  have hj0 : j = 0 := by omega
  have hk0 : k = 0 := by omega
  rw [hk0] at hk
  rw [hj0]
  exact hk

theorem runState_tailEmpty {g : EGrammar} {toks : List ETok} {fuel : Nat} {st : EState}
    (h : runState g toks fuel = some st) : TailEmpty st ∧ st.length = toks.length + 1 := by
  obtain ⟨h1, h2⟩ := runLoop_tailEmpty g fuel toks 0 _ st (length_initState g)
    (tailEmpty_initState g) h
  exact ⟨h1, by omega⟩

theorem mem_addTo {y : EItem} {pos : Nat} {x : EItem} {st : EState} {j : Nat}
    (h : y ∈ getSet (addTo pos x st) j) : y ∈ getSet st j ∨ y = x := by
  unfold addTo at h
  split at h
  · exact Or.inl h
  · by_cases hj : j = pos
    · subst hj
      unfold getSet at h
      rw [getElem?_updateAt, if_pos rfl] at h
      cases hp : st[j]? with
      | none => rw [hp] at h; exact absurd h (List.not_mem_nil y)
      | some l =>
        rw [hp] at h
        simp only [Option.map_some', Option.getD_some] at h
        rcases List.mem_append.mp h with h' | h'
        · exact Or.inl (by unfold getSet; rw [hp]; exact h')
        · exact Or.inr (List.mem_singleton.mp h')
    · rw [show getSet (updateAt pos (fun l => l ++ [x]) st) j = getSet st j from by
        unfold getSet; rw [getElem?_updateAt, if_neg hj]] at h
      exact Or.inl h

theorem nextSymbol_lt {g : EGrammar} {x : EItem} {nx : Nat}
    (h : x.nextSymbol g = some nx) : x.progress < (g.rule x.rule).deps.length := by
  unfold EItem.nextSymbol at h
  split at h
  · exact absurd h (by simp)
  · rename_i hne
    have := List.getElem?_eq_some.mp h
    exact this.1

theorem wf_addTo {g : EGrammar} {st : EState} (hwf : WFItems g st) {x : EItem}
    (hx : x.progress ≤ (g.rule x.rule).deps.length) (pos : Nat) :
    WFItems g (addTo pos x st) := by
  intro j y hy
  rcases mem_addTo hy with h | h
  · exact hwf j y h
  · rw [h]; exact hx

theorem wf_predict {g : EGrammar} {st : EState} (hwf : WFItems g st) (cur s : Nat) :
    WFItems g (predict g cur s st) := by
  unfold predict
  generalize g.preds s = l
  induction l generalizing st with
  | nil => exact hwf
  | cons r l ih => exact ih (wf_addTo hwf (Nat.zero_le _) cur)

theorem wf_completeItem {g : EGrammar} {st : EState} (hwf : WFItems g st) (cur : Nat)
    (x : EItem) : WFItems g (completeItem g cur x st) := by
  unfold completeItem
  generalize getSet st x.position = snap
  induction snap generalizing st with
  | nil => exact hwf
  | cons y l ih =>
    rw [List.foldl_cons]
    refine ih ?_
    cases hy : y.nextSymbol g with
    | none => exact hwf
    | some nx =>
      simp only
      split
      · exact wf_addTo hwf (Nat.succ_le_of_lt (nextSymbol_lt hy)) cur
      · exact hwf

theorem wf_processStepItem {g : EGrammar} {st : EState} (hwf : WFItems g st)
    (tok : ETok) (cur : Nat) (x : EItem) : WFItems g (processStepItem g tok cur x st) := by
  unfold processStepItem
  cases hx : x.nextSymbol g with
  | none => exact wf_completeItem hwf cur x
  | some nx =>
    simp only
    split
    · split
      · exact wf_addTo hwf (Nat.succ_le_of_lt (nextSymbol_lt hx)) (cur + 1)
      · exact hwf
    · refine wf_predict ?_ cur nx
      split
      · exact wf_addTo hwf (Nat.succ_le_of_lt (nextSymbol_lt hx)) cur
      · exact hwf

theorem wf_processFinalItem {g : EGrammar} {st : EState} (hwf : WFItems g st)
    (cur : Nat) (x : EItem) : WFItems g (processFinalItem g cur x st) := by
  unfold processFinalItem
  cases hx : x.nextSymbol g with
  | none => exact wf_completeItem hwf cur x
  | some nx =>
    simp only
    split
    · exact wf_predict (wf_addTo hwf (Nat.succ_le_of_lt (nextSymbol_lt hx)) cur) cur nx
    · exact hwf

theorem wf_stepLoop (g : EGrammar) (tok : ETok) (cur : Nat) :
    ∀ (fuel i : Nat) (st st' : EState), WFItems g st →
      stepLoop g tok cur fuel i st = some st' → WFItems g st' := by
  intro fuel
  induction fuel with
  | zero =>
    intro i st st' hwf h
    unfold stepLoop at h
    split at h
    · exact absurd h (by simp)
    · exact (Option.some_inj.mp h) ▸ hwf
  | succ fuel ih =>
    intro i st st' hwf h
    unfold stepLoop at h
    split at h
    · exact ih (i + 1) _ st' (wf_processStepItem hwf tok cur _) h
    · exact (Option.some_inj.mp h) ▸ hwf

theorem wf_finalLoop (g : EGrammar) (cur : Nat) :
    ∀ (fuel i : Nat) (st st' : EState), WFItems g st →
      finalLoop g cur fuel i st = some st' → WFItems g st' := by
  intro fuel
  induction fuel with
  | zero =>
    intro i st st' hwf h
    unfold finalLoop at h
    split at h
    · exact absurd h (by simp)
    · exact (Option.some_inj.mp h) ▸ hwf
  | succ fuel ih =>
    intro i st st' hwf h
    unfold finalLoop at h
    split at h
    · exact ih (i + 1) _ st' (wf_processFinalItem hwf cur _) h
    · exact (Option.some_inj.mp h) ▸ hwf

theorem wf_append {g : EGrammar} {st : EState} (hwf : WFItems g st) :
    WFItems g (st ++ [[]]) := by
  intro j y hy
  by_cases hj : j < st.length
  · rw [getSet_append_lt hj] at hy
    exact hwf j y hy
  · by_cases hj2 : j = st.length
    · subst hj2
      rw [getSet_append_nil] at hy
      exact absurd hy (by simp)
    · rw [getSet_oob (by simp; omega)] at hy
      exact absurd hy (by simp)

theorem runLoop_wf (g : EGrammar) (fuel : Nat) :
    ∀ (ts : List ETok) (cur : Nat) (st st' : EState), WFItems g st →
      runLoop g fuel ts cur st = some st' → WFItems g st' := by
  intro ts
  induction ts with
  | nil =>
    intro cur st st' hwf h
    exact wf_finalLoop g cur fuel 0 st st' hwf h
  | cons t ts ih =>
    intro cur st st' hwf h
    rw [runLoop] at h
    cases hs : stepLoop g t cur fuel 0 (st ++ [[]]) with
    | none => rw [hs] at h; exact absurd h (by simp)
    | some st2 =>
      rw [hs] at h
      simp only at h
      exact ih (cur + 1) st2 st' (wf_stepLoop g t cur fuel 0 _ st2 (wf_append hwf) hs) h

theorem runState_wf {g : EGrammar} {toks : List ETok} {fuel : Nat} {st : EState}
    (h : runState g toks fuel = some st) : WFItems g st := by
  refine runLoop_wf g fuel toks 0 _ st (wf_predict ?_ 0 g.root) h
  intro j y hy
  exfalso
  by_cases hj : j = 0
  · subst hj; exact absurd hy (by simp [getSet])
  · rw [getSet_oob (by simp; omega)] at hy
    exact absurd hy (by simp)

theorem nextSymbol_eq_none_iff {g : EGrammar} {x : EItem}
    (hwf : x.progress ≤ (g.rule x.rule).deps.length) :
    x.nextSymbol g = none ↔ x.progress = (g.rule x.rule).deps.length := by
  unfold EItem.nextSymbol
  split
  · rename_i h; simp [h]
  · rename_i h
    have hlt : x.progress < (g.rule x.rule).deps.length := lt_of_le_of_ne hwf h
    rw [List.getElem?_eq_getElem hlt]
    simp [h]

theorem isAccepting_iff {g : EGrammar} {x : EItem}
    (hwf : x.progress ≤ (g.rule x.rule).deps.length) :
    isAccepting g x = true ↔
      (g.rule x.rule).implements = g.root ∧ x.position = 0 ∧
        x.progress = (g.rule x.rule).deps.length := by
  unfold isAccepting
  rw [Bool.and_eq_true, Bool.and_eq_true]
  rw [beq_iff_eq, beq_iff_eq, Option.isNone_iff_eq_none, nextSymbol_eq_none_iff hwf]
  tauto

theorem matchesE_eq_none_iff (g : EGrammar) (toks : List ETok) (st : EState) :
    matchesE g toks st = none ↔ ∃ x ∈ getSet st (st.length - 1), isAccepting g x = true := by
  unfold matchesE
  split
  · rename_i i heq
    have hemp : (getSet st (st.length - 1)).isEmpty = true := by
      by_contra hne
      rw [if_neg hne] at heq
      cases heq
    have hnil : getSet st (st.length - 1) = [] := List.isEmpty_iff.mp hemp
    constructor
    · intro hcon; cases hcon
    · rintro ⟨x, hx, _⟩
      rw [hnil] at hx
      exact absurd hx (List.not_mem_nil x)
  · constructor
    · intro hif
      by_cases ha : (getSet st (st.length - 1)).any (isAccepting g)
      · exact List.any_eq_true.mp ha
      · rw [if_neg ha] at hif; cases hif
    · intro hex
      rw [if_pos (List.any_eq_true.mpr hex)]

theorem firstEmpty_none_of {st : EState} :
    ∀ l : List Nat, (∀ i ∈ l, getSet st (i + 1) ≠ []) → firstEmpty st l = none
  | [], _ => rfl
  | i :: is, h => by
    rw [firstEmpty]
    rw [if_neg (by
      intro he
      exact h i (List.mem_cons_self i is) (List.isEmpty_iff.mp he))]
    exact firstEmpty_none_of is fun j hj => h j (List.mem_cons_of_mem i hj)

theorem firstEmpty_range' {st : EState} :
    ∀ (n s k : Nat), s ≤ k → k < s + n → getSet st (k + 1) = [] →
      (∀ j, s ≤ j → j < k → getSet st (j + 1) ≠ []) →
      firstEmpty st (List.range' s n) = some k := by
  intro n
  induction n with
  | zero => intro s k h1 h2 _ _; omega
  | succ n ih =>
    intro s k h1 h2 he hmin
    rw [List.range'_succ, firstEmpty]
    by_cases hs : s = k
    · subst hs
      rw [if_pos (by rw [he]; rfl)]
    · rw [if_neg (by
        intro hemp
        exact hmin s (le_refl s) (by omega) (List.isEmpty_iff.mp hemp))]
      exact ih (s + 1) k (by omega) (by omega) he fun j hj1 hj2 => hmin j (by omega) hj2

/-- C1: after `matcher.run` builds the chart, `matcher.matches` reports
success (no error) if and only if set `N` (the set at index `toks.length`,
the last one) holds an item whose rule implements the start symbol, whose
origin is 0 and whose progress equals its rule's dependency count. -/
theorem C1_acceptance (g : EGrammar) (toks : List ETok) (fuel : Nat) (st : EState)
    (h : runState g toks fuel = some st) :
    runE g toks fuel = some (matchesE g toks st) ∧
      (matchesE g toks st = none ↔
        ∃ x ∈ getSet st toks.length,
          (g.rule x.rule).implements = g.root ∧ x.position = 0 ∧
            x.progress = (g.rule x.rule).deps.length) := by
  obtain ⟨hte, hlen⟩ := runState_tailEmpty h
  have hwf := runState_wf h
  constructor
  · rw [runE, h]
    rfl
  · rw [matchesE_eq_none_iff]
    have hN : st.length - 1 = toks.length := by omega
    rw [hN]
    constructor
    · rintro ⟨x, hx, hacc⟩
      exact ⟨x, hx, (isAccepting_iff (hwf _ x hx)).mp hacc⟩
    · rintro ⟨x, hx, hacc⟩
      exact ⟨x, hx, (isAccepting_iff (hwf _ x hx)).mpr hacc⟩

/-- Witness for C1 at the S1 grammar and input (which the recognizer
accepts). -/
theorem C1_acceptance_witness :
    runE g5 toks5 12 = some (matchesE g5 toks5 chart5) ∧
      (matchesE g5 toks5 chart5 = none ↔
        ∃ x ∈ getSet chart5 toks5.length,
          (g5.rule x.rule).implements = g5.root ∧ x.position = 0 ∧
            x.progress = (g5.rule x.rule).deps.length) :=
  C1_acceptance g5 toks5 12 chart5 (by decide)

/-- C2: on a failed recognition, if some set among `1..N` is empty then the
error is `ErrUnexpectedToken` carrying `toks[k-1]` for the smallest such
index `k`; if every such set is nonempty but no accepting item exists in set
`N`, the error is the unexpected-end-of-input error. -/
theorem C2_error_reporting (g : EGrammar) (toks : List ETok) (fuel : Nat) (st : EState)
    (h : runState g toks fuel = some st) :
    (∀ k, 1 ≤ k → k < st.length → getSet st k = [] →
      (∀ j, 1 ≤ j → j < k → getSet st j ≠ []) →
      matchesE g toks st =
        some (.unexpectedToken ((toks[k - 1]?).getD { ttype := 0, payload := 0 }))) ∧
    ((∀ k, 1 ≤ k → k < st.length → getSet st k ≠ []) →
      (¬ ∃ x ∈ getSet st toks.length,
        (g.rule x.rule).implements = g.root ∧ x.position = 0 ∧
          x.progress = (g.rule x.rule).deps.length) →
      matchesE g toks st = some .unexpectedEOF) := by
  obtain ⟨hte, hlen⟩ := runState_tailEmpty h
  have hwf := runState_wf h
  have hN : st.length - 1 = toks.length := by omega
  constructor
  · intro k hk1 hk2 hke hmin
    have hlast : getSet st (st.length - 1) = [] :=
      hte k (st.length - 1) (by omega) (by omega) hke
    unfold matchesE
    have hfe : firstEmpty st (List.range (st.length - 1)) = some (k - 1) := by
      rw [List.range_eq_range']
      refine firstEmpty_range' (st.length - 1) 0 (k - 1) (Nat.zero_le _) (by omega)
        (by rw [show k - 1 + 1 = k from by omega]; exact hke) ?_
      intro j _ hj2
      exact hmin (j + 1) (by omega) (by omega)
    rw [if_pos (by rw [hlast]; rfl), hfe]
  · intro hne hnoacc
    have hscrut : (if (getSet st (st.length - 1)).isEmpty then
        firstEmpty st (List.range (st.length - 1)) else none) = none := by
      by_cases he : (getSet st (st.length - 1)).isEmpty
      · rw [if_pos he]
        refine firstEmpty_none_of _ fun i hi => ?_
        exact hne (i + 1) (by omega) (by have := List.mem_range.mp hi; omega)
      · rw [if_neg he]
    have hanyf : (getSet st (st.length - 1)).any (isAccepting g) = false := by
      rw [List.any_eq_false]
      intro x hx hacc
      refine hnoacc ⟨x, by rw [← hN]; exact hx, ?_⟩
      exact (isAccepting_iff (hwf _ x hx)).mp hacc
    unfold matchesE
    rw [hscrut, hanyf]
    rfl

/-- Witness for C2 at the S2 input `[int(1), '+', int(2), '+', '+', int(3)]`
(the parse fails with `ErrUnexpectedToken` on the second consecutive
`'+'`). -/
theorem flipLE_total (g : EGrammar) (a b : EItem) (h : ¬ flipLE g a b = true) :
    flipLE g b a = true := by
  unfold flipLE at *
  simp only [Bool.or_eq_true, Bool.and_eq_true, decide_eq_true_eq, beq_iff_eq] at *
  push_neg at h
  omega

theorem flipLE_trans (g : EGrammar) {a b c : EItem} (h1 : flipLE g a b = true)
    (h2 : flipLE g b c = true) : flipLE g a c = true := by
  unfold flipLE at *
  simp only [Bool.or_eq_true, Bool.and_eq_true, decide_eq_true_eq, beq_iff_eq] at *
  omega

theorem mem_insertSorted (g : EGrammar) (x : EItem) :
    ∀ l : List EItem, ∀ z ∈ insertSorted g x l, z = x ∨ z ∈ l
  | [], z, hz => by
    unfold insertSorted at hz
    exact Or.inl (List.mem_singleton.mp hz)
  | y :: ys, z, hz => by
    unfold insertSorted at hz
    split at hz
    · rcases List.mem_cons.mp hz with h | h
      · exact Or.inl h
      · exact Or.inr h
    · rcases List.mem_cons.mp hz with h | h
      · exact Or.inr (h ▸ List.mem_cons_self y ys)
      · rcases mem_insertSorted g x ys z h with h' | h'
        · exact Or.inl h'
        · exact Or.inr (List.mem_cons_of_mem y h')

theorem pairwise_insertSorted (g : EGrammar) (x : EItem) :
    ∀ l : List EItem, l.Pairwise (fun a b => flipLE g a b = true) →
      (insertSorted g x l).Pairwise (fun a b => flipLE g a b = true)
  | [], _ => by
    unfold insertSorted
    exact List.pairwise_singleton _ x
  | y :: ys, h => by
    unfold insertSorted
    obtain ⟨hy, hys⟩ := List.pairwise_cons.mp h
    split
    · rename_i hxy
      refine List.pairwise_cons.mpr ⟨?_, h⟩
      intro z hz
      rcases List.mem_cons.mp hz with h' | h'
      · exact h' ▸ hxy
      · exact flipLE_trans g hxy (hy z h')
    · rename_i hxy
      refine List.pairwise_cons.mpr ⟨?_, pairwise_insertSorted g x ys hys⟩
      intro z hz
      rcases mem_insertSorted g x ys z hz with h' | h'
      · exact h' ▸ flipLE_total g x y hxy
      · exact hy z h'

theorem pairwise_sortItems (g : EGrammar) :
    ∀ l : List EItem, (sortItems g l).Pairwise (fun a b => flipLE g a b = true)
  | [] => List.Pairwise.nil
  | x :: xs => pairwise_insertSorted g x (sortItems g xs) (pairwise_sortItems g xs)

/-- C5: every entry of the builder's flipped chart is sorted by the
comparator of `matcher.builder` (rule index ascending, then end position
ascending), and on the S1 grammar `expr := int | expr '+' expr` with input
`[int(1), '+', int(2), '+', int(3)]` the depth-first search returns the
left-associative tree `add(add(int(1), int(2)), int(3))`. -/
theorem C5_tie_break_left_assoc :
    (∀ (g : EGrammar) (st : EState), ∀ e ∈ builderState g st,
      e.Pairwise (fun a b => flipLE g a b = true)) ∧
    runState g5 toks5 12 = some chart5 ∧
    matchesE g5 toks5 chart5 = none ∧
    buildE g5 chart5 toks5 60 =
      some (.value (.vadd (.vadd (.vint 1) (.vint 2)) (.vint 3))) := by
  refine ⟨?_, by decide, by decide, by decide⟩
  intro g st e he
  unfold builderState at he
  obtain ⟨e', -, rfl⟩ := List.mem_map.mp he
  exact pairwise_sortItems g e'

theorem findSpanF_succ (g : EGrammar) (b : EState) (seen : List ETok) (fuel : Nat)
    (x : EItem) (start : Nat) :
    findSpanF g b seen (fuel + 1) x start =
      match findSpanChildrenF g b seen fuel (g.rule x.rule).deps start x.position with
      | none => none
      | some none => some none
      | some (some children) => some (some (ESpan.node x start children)) := rfl

theorem findSpanChildrenF_succ_cons (g : EGrammar) (b : EState) (seen : List ETok)
    (fuel : Nat) (d : Nat) (rest : List Nat) (start stop : Nat) :
    findSpanChildrenF g b seen (fuel + 1) (d :: rest) start stop =
      if g.isTok d then tokenSpanF g b seen fuel (d :: rest) start stop
      else ruleSpanF g b seen fuel (d :: rest) start stop (getSet b start) := rfl

theorem ruleSpanF_succ_cons (g : EGrammar) (b : EState) (seen : List ETok) (fuel : Nat)
    (d : Nat) (rest : List Nat) (start stop : Nat) (found : EItem) (cands : List EItem) :
    ruleSpanF g b seen (fuel + 1) (d :: rest) start stop (found :: cands) =
      if (g.rule found.rule).implements == d then
        match findSpanChildrenF g b seen fuel rest found.position stop with
        | none => none
        | some none => ruleSpanF g b seen fuel (d :: rest) start stop cands
        | some (some next) =>
          match findSpanF g b seen fuel found start with
          | none => none
          | some none => ruleSpanF g b seen fuel (d :: rest) start stop cands
          | some (some inner) => some (some (inner :: next))
      else ruleSpanF g b seen fuel (d :: rest) start stop cands := rfl

theorem buildTops_cons (g : EGrammar) (b : EState) (seen : List ETok) (fuel : Nat)
    (top : EItem) (rest : List EItem) :
    buildTops g b seen fuel (top :: rest) =
      if (g.rule top.rule).implements == g.root && top.position == seen.length then
        match findSpanF g b seen fuel top 0 with
        | none => none
        | some none => some BuildRes.failedMatch
        | some (some sp) =>
          match buildValF g fuel sp with
          | none => none
          | some v => some (BuildRes.value v)
      else buildTops g b seen fuel rest := rfl

theorem g3_findSpan_diverges :
    ∀ fuel : Nat,
      findSpanF g3 flip3 [] fuel ⟨1, 0, 1⟩ 0 = none ∧
      findSpanChildrenF g3 flip3 [] fuel [0] 0 0 = none ∧
      ruleSpanF g3 flip3 [] fuel [0] 0 0 [⟨1, 0, 1⟩, ⟨0, 0, 0⟩] = none := by
  intro fuel
  induction fuel with
  | zero => exact ⟨rfl, rfl, rfl⟩
  | succ fuel ih =>
    refine ⟨?_, ?_, ?_⟩
    · rw [findSpanF_succ]
      rw [show (g3.rule (1 : Nat)).deps = [0] from rfl]
      rw [show (⟨1, 0, 1⟩ : EItem).position = 0 from rfl, ih.2.1]
    · rw [findSpanChildrenF_succ_cons]
      rw [show g3.isTok 0 = false from rfl]
      rw [show getSet flip3 0 = [⟨1, 0, 1⟩, ⟨0, 0, 0⟩] from rfl]
      simpa using ih.2.2
    · rw [ruleSpanF_succ_cons]
      rw [show ((g3.rule (⟨1, 0, 1⟩ : EItem).rule).implements == 0) = true from rfl]
      simp only [if_true]
      cases fuel with
      | zero => rfl
      | succ fuel' =>
        simp only [ih.1]
        rfl

/-- C3 (code bug): for the grammar `A → ε | A → A` (rules `ME() A` and
`MA(x A) A`, the self-recursive rule having the smaller method index) on the
empty input, the recognizer accepts, yet the derivation builder's `findSpan`
on the first top candidate recurses through the self-recursive completion
`A → A` at the same position forever (no result at any fuel; the Go `build()`
overflows the stack instead of returning), refuting the guarantee that the
span search succeeds whenever the recognizer accepted. -/
theorem C3_builder_diverges_on_epsilon_cycle :
    runState g3 [] 10 = some chart3 ∧
    matchesE g3 [] chart3 = none ∧
    builderState g3 chart3 = flip3 ∧
    (∀ fuel, buildE g3 chart3 [] fuel = none) := by
  refine ⟨by decide, by decide, by decide, ?_⟩
  intro fuel
  show buildTops g3 (builderState g3 chart3) [] fuel (getSet (builderState g3 chart3) 0) = none
  rw [show builderState g3 chart3 = flip3 from by decide]
  rw [show getSet flip3 0 = [⟨1, 0, 1⟩, ⟨0, 0, 0⟩] from rfl]
  rw [buildTops_cons]
  rw [show ((g3.rule (⟨1, 0, 1⟩ : EItem).rule).implements == g3.root &&
    (⟨1, 0, 1⟩ : EItem).position == List.length ([] : List ETok)) = true from rfl]
  simp only [if_true]
  rw [(g3_findSpan_diverges fuel).1]

theorem coversB_cons (r : RMatch) (l : List RMatch) (c : Nat) :
    coversB (r :: l) c = ((r.start ≤ c && c ≤ r.stop) || coversB l c) := by
  simp [coversB, List.any_cons]

theorem coversB_singleton (r : RMatch) (c : Nat) :
    coversB [r] c = (r.start ≤ c && c ≤ r.stop) := by
  simp [coversB]

theorem charsetInverse_eq (s : List RMatch) :
    charsetInverse s =
      if ((sortRanges s).foldl inverseStep ([], 0)).2 < maxRune then
        ((sortRanges s).foldl inverseStep ([], 0)).1 ++
          [⟨((sortRanges s).foldl inverseStep ([], 0)).2, maxRune⟩]
      else ((sortRanges s).foldl inverseStep ([], 0)).1 := rfl

theorem coversB_append (a b : List RMatch) (c : Nat) :
    coversB (a ++ b) c = (coversB a c || coversB b c) := by
  simp [coversB, List.any_append]

theorem coversB_false_of_lt_start {l : List RMatch} {s c : Nat}
    (hl : ∀ b ∈ l, s ≤ b.start) (hc : c < s) : coversB l c = false := by
  rw [coversB, List.any_eq_false]
  intro r hr
  have := hl r hr
  simp only [Bool.and_eq_true, decide_eq_true_eq, not_and]
  omega

theorem mem_insertByStart (x z : RMatch) :
    ∀ l : List RMatch, (z ∈ insertByStart x l ↔ z = x ∨ z ∈ l)
  | [] => by simp [insertByStart]
  | y :: ys => by
    unfold insertByStart
    split
    · simp
    · rw [List.mem_cons, mem_insertByStart x z ys, List.mem_cons]
      tauto

theorem mem_sortRanges (z : RMatch) : ∀ l : List RMatch, (z ∈ sortRanges l ↔ z ∈ l)
  | [] => Iff.rfl
  | x :: xs => by
    rw [sortRanges, mem_insertByStart, mem_sortRanges z xs, List.mem_cons]

theorem coversB_sortRanges (l : List RMatch) (c : Nat) :
    coversB (sortRanges l) c = coversB l c := by
  rw [coversB, coversB]
  cases h : l.any fun r => r.start ≤ c && c ≤ r.stop with
  | true =>
    obtain ⟨r, hr, hrc⟩ := List.any_eq_true.mp h
    exact List.any_eq_true.mpr ⟨r, (mem_sortRanges r l).mpr hr, hrc⟩
  | false =>
    rw [List.any_eq_false] at h
    rw [List.any_eq_false]
    intro r hr
    exact h r ((mem_sortRanges r l).mp hr)

theorem sorted_insertByStart (x : RMatch) :
    ∀ l : List RMatch, l.Pairwise (fun a b => a.start ≤ b.start) →
      (insertByStart x l).Pairwise (fun a b => a.start ≤ b.start)
  | [], _ => List.pairwise_singleton _ x
  | y :: ys, h => by
    unfold insertByStart
    obtain ⟨hy, hys⟩ := List.pairwise_cons.mp h
    split
    · rename_i hxy
      refine List.pairwise_cons.mpr ⟨?_, h⟩
      intro z hz
      rcases List.mem_cons.mp hz with h' | h'
      · exact h' ▸ hxy
      · exact le_trans hxy (hy z h')
    · rename_i hxy
      refine List.pairwise_cons.mpr ⟨?_, sorted_insertByStart x ys hys⟩
      intro z hz
      rcases (mem_insertByStart x z ys).mp hz with h' | h'
      · subst h'; omega
      · exact hy z h'

theorem sorted_sortRanges :
    ∀ l : List RMatch, (sortRanges l).Pairwise (fun a b => a.start ≤ b.start)
  | [] => List.Pairwise.nil
  | x :: xs => sorted_insertByStart x (sortRanges xs) (sorted_sortRanges xs)

theorem inverse_fold :
    ∀ (l : List RMatch) (res : List RMatch) (last : Nat),
      l.Pairwise (fun a b => a.start ≤ b.start) →
      last ≤ (l.foldl inverseStep (res, last)).2 ∧
      (∀ c, coversB (l.foldl inverseStep (res, last)).1 c = true ↔
        (coversB res c = true ∨
          (last ≤ c ∧ c < (l.foldl inverseStep (res, last)).2 ∧ coversB l c = false))) ∧
      (∀ c, last ≤ c → coversB l c = true → c < (l.foldl inverseStep (res, last)).2) ∧
      (last < (l.foldl inverseStep (res, last)).2 →
        coversB l ((l.foldl inverseStep (res, last)).2 - 1) = true) := by
  intro l
  induction l with
  | nil =>
    intro res last _
    refine ⟨le_refl _, fun c => ?_, fun c _ h => by simp [coversB] at h,
      fun h => by simp only [List.foldl_nil] at h; omega⟩
    simp only [List.foldl_nil]
    constructor
    · exact fun h => Or.inl h
    · rintro (h | ⟨h1, h2, _⟩)
      · exact h
      · omega
  | cons r l ih =>
    intro res last hsor
    obtain ⟨hr, hl⟩ := List.pairwise_cons.mp hsor
    rw [List.foldl_cons]
    by_cases hre : r.stop < r.start
    · rw [show inverseStep (res, last) r = (res, last) from by unfold inverseStep; rw [if_pos hre]]
      obtain ⟨i1, i2, i3, i4⟩ := ih res last hl
      refine ⟨i1, fun c => ?_, fun c hc hcov => ?_, fun h => ?_⟩
      · rw [i2 c, coversB_cons]
        constructor
        · rintro (h | ⟨h1, h2, h3⟩)
          · exact Or.inl h
          · refine Or.inr ⟨h1, h2, ?_⟩
            simp only [Bool.or_eq_false_iff, Bool.and_eq_false_iff]
            refine ⟨?_, h3⟩
            simp only [decide_eq_false_iff_not, not_le]
            omega
        · rintro (h | ⟨h1, h2, h3⟩)
          · exact Or.inl h
          · rw [Bool.or_eq_false_iff] at h3
            exact Or.inr ⟨h1, h2, h3.2⟩
      · rw [coversB_cons, Bool.or_eq_true] at hcov
        rcases hcov with h | h
        · simp only [Bool.and_eq_true, decide_eq_true_eq] at h
          omega
        · exact i3 c hc h
      · rw [coversB_cons, i4 h]
        simp
    · have hstep : inverseStep (res, last) r =
          (if r.start > last then res ++ [⟨last, r.start - 1⟩] else res,
           if r.stop ≥ last then r.stop + 1 else last) := by
        unfold inverseStep
        rw [if_neg hre]
      rw [hstep]
      set res1 := if r.start > last then res ++ [⟨last, r.start - 1⟩] else res with hres1
      set last1 := if r.stop ≥ last then r.stop + 1 else last with hlast1
      obtain ⟨i1, i2, i3, i4⟩ := ih res1 last1 hl
      have hll1 : last ≤ last1 := by rw [hlast1]; split <;> omega
      have hstoplt : r.stop < last1 := by rw [hlast1]; split <;> omega
      have hcov1 : ∀ c, coversB res1 c = true ↔
          (coversB res c = true ∨ (r.start > last ∧ last ≤ c ∧ c < r.start)) := by
        intro c
        rw [hres1]
        split
        · rename_i hgap
          rw [coversB_append, Bool.or_eq_true, coversB_cons]
          simp only [coversB, List.any_nil, Bool.or_false, Bool.and_eq_true,
            decide_eq_true_eq]
          constructor
          · rintro (h | ⟨h1, h2⟩)
            · exact Or.inl h
            · exact Or.inr ⟨hgap, h1, by omega⟩
          · rintro (h | ⟨_, h2, h3⟩)
            · exact Or.inl h
            · exact Or.inr ⟨h2, by omega⟩
        · rename_i hgap
          constructor
          · exact fun h => Or.inl h
          · rintro (h | ⟨h1, _, _⟩)
            · exact h
            · omega
      have hre' : r.start ≤ r.stop := by omega
      have hl1cases : (r.stop < last ∧ last1 = last) ∨ (last ≤ r.stop ∧ last1 = r.stop + 1) := by
        rw [hlast1]
        split
        · rename_i hge
          exact Or.inr ⟨hge, rfl⟩
        · rename_i hge
          exact Or.inl ⟨by omega, rfl⟩
      refine ⟨le_trans hll1 i1, fun c => ?_, fun c hc hcov => ?_, fun h => ?_⟩
      · rw [i2 c, hcov1 c, coversB_cons]
        constructor
        · rintro ((h | ⟨hg, h1, h2⟩) | ⟨h1, h2, h3⟩)
          · exact Or.inl h
          · refine Or.inr ⟨h1, ?_, ?_⟩
            · rcases hl1cases with ⟨h5, h6⟩ | ⟨h5, h6⟩ <;> omega
            · simp only [Bool.or_eq_false_iff, Bool.and_eq_false_iff]
              constructor
              · simp only [decide_eq_false_iff_not, not_le]
                omega
              · exact coversB_false_of_lt_start hr (by omega)
          · refine Or.inr ⟨by omega, h2, ?_⟩
            simp only [Bool.or_eq_false_iff, Bool.and_eq_false_iff]
            refine ⟨?_, h3⟩
            simp only [decide_eq_false_iff_not, not_le]
            omega
        · rintro (h | ⟨h1, h2, h3⟩)
          · exact Or.inl (Or.inl h)
          · rw [Bool.or_eq_false_iff, Bool.and_eq_false_iff] at h3
            obtain ⟨hna, hnl⟩ := h3
            have hna' : c < r.start ∨ r.stop < c := by
              rcases hna with hna | hna <;>
                simp only [decide_eq_false_iff_not, not_le] at hna
              · exact Or.inl hna
              · exact Or.inr hna
            by_cases hcl : c < last1
            · have hkey : r.start > last ∧ c < r.start := by
                rcases hl1cases with ⟨h5, h6⟩ | ⟨h5, h6⟩ <;> rcases hna' with h7 | h7 <;> omega
              exact Or.inl (Or.inr ⟨hkey.1, h1, hkey.2⟩)
            · exact Or.inr ⟨by omega, h2, hnl⟩
      · rw [coversB_cons, Bool.or_eq_true] at hcov
        rcases hcov with hcv | hcv
        · simp only [Bool.and_eq_true, decide_eq_true_eq] at hcv
          omega
        · by_cases hcl : c < last1
          · omega
          · exact i3 c (by omega) hcv
      · by_cases hbump : last1 < (l.foldl inverseStep (res1, last1)).2
        · rw [coversB_cons, i4 hbump]
          simp
        · have he : last1 = (l.foldl inverseStep (res1, last1)).2 := by omega
          have hFeq : (l.foldl inverseStep (res1, last1)).2 = r.stop + 1 := by
            rcases hl1cases with ⟨h5, h6⟩ | ⟨h5, h6⟩ <;> omega
          rw [coversB_cons]
          simp only [Bool.or_eq_true, Bool.and_eq_true, decide_eq_true_eq]
          left
          omega

/-- C8 counterexample: for the class covering `[0, MaxRune-1]` the inverse is
empty, yet the codepoint `MaxRune` is covered by no input range, so the
claimed equivalence fails at `c = MaxRune`. -/
theorem C8_maxrune_counterexample :
    charsetInverse [⟨0, 1114110⟩] = [] ∧
      ¬ (coversB (charsetInverse [⟨0, 1114110⟩]) maxRune = true ↔
         coversB [⟨0, 1114110⟩] maxRune = false) := by
  constructor
  · decide
  · decide

/-- C8 (amended): for every class of valid ranges and codepoint
`c ≤ MaxRune`, the inverse covers `c` iff no input range does — except in
the single corner where `c = MaxRune`, `MaxRune - 1` is covered and
`MaxRune` is not (there `charset.inverse` omits the one-point range
`[MaxRune, MaxRune]` because of its strict `last < MaxRune` guard). -/
theorem C8_inverse_complement (s : List RMatch) (hs : ∀ r ∈ s, r.stop ≤ maxRune)
    (c : Nat) (hc : c ≤ maxRune)
    (hedge : ¬ (c = maxRune ∧ coversB s (maxRune - 1) = true ∧
      coversB s maxRune = false)) :
    coversB (charsetInverse s) c = true ↔ coversB s c = false := by
  obtain ⟨h1, h2, h3, h4⟩ := inverse_fold (sortRanges s) [] 0 (sorted_sortRanges s)
  have hcovs : ∀ d, coversB (sortRanges s) d = coversB s d := coversB_sortRanges s
  rw [charsetInverse_eq]
  set L := ((sortRanges s).foldl inverseStep ([], 0)).2 with hL
  set R := ((sortRanges s).foldl inverseStep ([], 0)).1 with hR
  have h2' : ∀ d, coversB R d = true ↔ (d < L ∧ coversB s d = false) := by
    intro d
    rw [h2 d, hcovs d]
    simp only [coversB, List.any_nil]
    constructor
    · rintro (h | ⟨_, hb, hcv⟩)
      · cases h
      · exact ⟨hb, hcv⟩
    · rintro ⟨hb, hcv⟩
      exact Or.inr ⟨Nat.zero_le d, hb, hcv⟩
  have h3' : ∀ d, coversB s d = true → d < L := by
    intro d hd
    exact h3 d (Nat.zero_le d) ((hcovs d).symm ▸ hd)
  by_cases hlt : L < maxRune
  · rw [if_pos hlt]
    rw [coversB_append, Bool.or_eq_true, h2' c, coversB_singleton]
    simp only [Bool.and_eq_true, decide_eq_true_eq]
    by_cases hcL : c < L
    · constructor
      · rintro (⟨_, hcv⟩ | ⟨hb, _⟩)
        · exact hcv
        · omega
      · intro hcv
        exact Or.inl ⟨hcL, hcv⟩
    · constructor
      · intro _
        cases hcvs : coversB s c with
        | false => rfl
        | true => exact absurd (h3' c hcvs) hcL
      · intro _
        exact Or.inr ⟨by omega, hc⟩
  · rw [if_neg hlt]
    by_cases hcL : c < L
    · rw [h2' c]
      constructor
      · rintro ⟨_, hcv⟩
        exact hcv
      · intro hcv
        exact ⟨hcL, hcv⟩
    · exfalso
      have hcm : c = maxRune := by omega
      have hLm : L = maxRune := by omega
      refine hedge ⟨hcm, ?_, ?_⟩
      · have hcov : coversB (sortRanges s) (L - 1) = true := h4 (by
          rw [hLm]
          decide)
        rw [hcovs, hLm] at hcov
        exact hcov
      · cases hcvs : coversB s maxRune with
        | false => rfl
        | true =>
          have := h3' maxRune hcvs
          omega

/-- Witness for the amended C8 at a concrete class and codepoint. -/
theorem C8_inverse_complement_witness :
    coversB (charsetInverse [⟨97, 122⟩]) 50 = true ↔ coversB [⟨97, 122⟩] 50 = false :=
  C8_inverse_complement [⟨97, 122⟩] (by decide) 50 (by decide) (by decide)

theorem C2_error_reporting_witness :
    (∀ k, 1 ≤ k → k < chart5b.length → getSet chart5b k = [] →
      (∀ j, 1 ≤ j → j < k → getSet chart5b j ≠ []) →
      matchesE g5 toks5b chart5b =
        some (.unexpectedToken ((toks5b[k - 1]?).getD { ttype := 0, payload := 0 }))) ∧
    ((∀ k, 1 ≤ k → k < chart5b.length → getSet chart5b k ≠ []) →
      (¬ ∃ x ∈ getSet chart5b toks5b.length,
        (g5.rule x.rule).implements = g5.root ∧ x.position = 0 ∧
          x.progress = (g5.rule x.rule).deps.length) →
      matchesE g5 toks5b chart5b = some .unexpectedEOF) :=
  C2_error_reporting g5 toks5b 12 chart5b (by decide)

/-! ## Lexer lemmas -/

/-- The `detectFinal` fold never moves `end` beyond `pos`, never moves it
backwards, leaves the accumulator unchanged when no final was recorded, and
when it records a final starting from `final = -1` it strictly increases
`end`. -/
theorem detectFold_spec {T : Type} (v : List Bool) (pos : Nat) :
    ∀ (l : List (Nat × FinalState T)) (acc : Int × Nat), acc.2 ≤ pos →
      (l.foldl (detectStep v pos) acc).2 ≤ pos ∧
      acc.2 ≤ (l.foldl (detectStep v pos) acc).2 ∧
      ((l.foldl (detectStep v pos) acc).1 < 0 →
        l.foldl (detectStep v pos) acc = acc) ∧
      (acc.1 < 0 → 0 ≤ (l.foldl (detectStep v pos) acc).1 →
        acc.2 < (l.foldl (detectStep v pos) acc).2)
  | [], acc, h => by
    exact ⟨h, le_refl _, fun _ => rfl,
      fun h1 h2 => absurd (show (0 : Int) ≤ acc.1 from h2) (by omega)⟩
  | p :: t, acc, h => by
    simp only [List.foldl_cons]
    by_cases hg : getB v p.2.Given = true
    · by_cases hc : pos > acc.2 ∨ (pos = acc.2 ∧ (p.1 : Int) < acc.1)
      · have hstep : detectStep v pos acc p = ((p.1 : Int), pos) := by
          unfold detectStep; rw [if_pos hg, if_pos hc]
        rw [hstep]
        have ih := detectFold_spec v pos t ((p.1 : Int), pos) (le_refl _)
        refine ⟨ih.1, le_trans h ih.2.1, ?_, ?_⟩
        · intro hneg
          have heq := ih.2.2.1 hneg
          rw [heq] at hneg
          exact absurd hneg (by omega)
        · intro hacc _
          have hpos : acc.2 < pos := by
            rcases hc with hgt | ⟨_, hlt⟩
            · exact hgt
            · exact absurd hlt (by omega)
          exact lt_of_lt_of_le hpos ih.2.1
      · have hstep : detectStep v pos acc p = acc := by
          unfold detectStep; rw [if_pos hg, if_neg hc]
        rw [hstep]
        exact detectFold_spec v pos t acc h
    · have hstep : detectStep v pos acc p = acc := by
        unfold detectStep; rw [if_neg hg]
      rw [hstep]
      exact detectFold_spec v pos t acc h

/-- `detectFinal` instantiation of the fold invariant. -/
theorem detectFinal_spec {T : Type} (L : ELexer T) (v : List Bool) (pos : Nat)
    (final : Int) (endP : Nat) (hep : endP ≤ pos) :
    (detectFinal L v pos (final, endP)).2 ≤ pos ∧
    endP ≤ (detectFinal L v pos (final, endP)).2 ∧
    ((detectFinal L v pos (final, endP)).1 < 0 →
      detectFinal L v pos (final, endP) = (final, endP)) ∧
    (final < 0 → 0 ≤ (detectFinal L v pos (final, endP)).1 →
      endP < (detectFinal L v pos (final, endP)).2) :=
  detectFold_spec v pos L.finalStates.enum (final, endP) hep

/-- The exec loop's recorded `end`: if a final state was recorded then `end`
lies strictly beyond the token's start, and `end` never exceeds the input
length. -/
theorem execLoop_spec {T : Type} (L : ELexer T) (start : Nat) :
    ∀ (rem : List Nat) (v : List Bool) (final : Int) (endP pos : Nat),
      start ≤ pos → endP ≤ pos →
      (final < 0 → endP = start) → (0 ≤ final → start < endP) →
      (0 ≤ (execLoop L rem v final endP pos).2.1 →
        start < (execLoop L rem v final endP pos).2.2) ∧
      (execLoop L rem v final endP pos).2.2 ≤ pos + rem.length
  | [], v, final, endP, pos, hsp, hep, hneg, hpos => by
    have hd := detectFinal_spec L (closeState L v) pos final endP hep
    refine ⟨fun h0 => ?_, ?_⟩
    · show start < (detectFinal L (closeState L v) pos (final, endP)).2
      have h0a : 0 ≤ (detectFinal L (closeState L v) pos (final, endP)).1 := h0
      by_cases hf : final < 0
      · have h1 := hd.2.2.2 hf h0a
        have h2 := hneg hf
        omega
      · have h1 := hpos (by omega)
        have h2 := hd.2.1
        omega
    · show (detectFinal L (closeState L v) pos (final, endP)).2 ≤ pos + [].length
      have h1 := hd.1
      simp only [List.length_nil, Nat.add_zero]
      exact h1
  | c :: rem, v, final, endP, pos, hsp, hep, hneg, hpos => by
    have hd := detectFinal_spec L (closeState L v) pos final endP hep
    have hfe1 : (detectFinal L (closeState L v) pos (final, endP)).1 < 0 →
        (detectFinal L (closeState L v) pos (final, endP)).2 = start := by
      intro hneg2
      have heq := hd.2.2.1 hneg2
      have hf : final < 0 := by rw [heq] at hneg2; exact hneg2
      rw [heq]
      exact hneg hf
    have hfe2 : 0 ≤ (detectFinal L (closeState L v) pos (final, endP)).1 →
        start < (detectFinal L (closeState L v) pos (final, endP)).2 := by
      intro h0
      by_cases hf : final < 0
      · have h1 := hd.2.2.2 hf h0
        have h2 := hneg hf
        omega
      · have h1 := hpos (by omega)
        have h2 := hd.2.1
        omega
    by_cases hmv : (moveState L (closeState L v) c).2 = true
    · have ih := execLoop_spec L start rem (moveState L (closeState L v) c).1
        (detectFinal L (closeState L v) pos (final, endP)).1
        (detectFinal L (closeState L v) pos (final, endP)).2 (pos + 1)
        (by omega) (by have h1 := hd.1; omega) hfe1 hfe2
      simp only [execLoop]
      rw [if_pos hmv]
      refine ⟨ih.1, ?_⟩
      have h2 := ih.2
      simp only [List.length_cons]
      omega
    · simp only [execLoop]
      rw [if_neg hmv]
      refine ⟨fun h0 => ?_, ?_⟩
      · show start < (detectFinal L (closeState L v) pos (final, endP)).2
        exact hfe2 h0
      · show (detectFinal L (closeState L v) pos (final, endP)).2 ≤
          pos + (c :: rem).length
        have h1 := hd.1
        simp only [List.length_cons]
        omega

/-- A successful `exec` strictly advances `srcPos`, stays within the input,
leaves `src` and `err` unchanged, and stores a token. -/
theorem execE_true {T : Type} {L : ELexer T} {s s2 : EStream T}
    (hsp : s.srcPos ≤ s.src.length) (h : execE L s = (true, s2)) :
    s.srcPos < s2.srcPos ∧ s2.srcPos ≤ s.src.length ∧ s2.src = s.src ∧
      s2.err = s.err ∧ ∃ t, s2.tok = some t := by
  have hspec := execLoop_spec L s.srcPos (s.src.drop s.srcPos)
    (s.thisv.set 0 true) (-1) s.srcPos s.srcPos (le_refl _) (le_refl _)
    (fun _ => rfl) (fun hc => absurd hc (by omega))
  simp only [execE] at h
  set r := execLoop L (s.src.drop s.srcPos) (s.thisv.set 0 true) (-1)
    s.srcPos s.srcPos with hr
  split at h
  · simp at h
  · rename_i hf
    split at h
    · simp at h
    · rename_i op hop
      split at h
      · rename_i t hy
        injection h with h1 h2
        subst h2
        refine ⟨hspec.1 (by omega), ?_, rfl, rfl, ⟨t, rfl⟩⟩
        have h2 := hspec.2
        rw [List.length_drop] at h2
        show r.2.2 ≤ s.src.length
        omega
      · simp at h

/-- Fuel sufficiency for `forceF`: any fuel exceeding the unscanned length
makes `Force` return. -/
theorem forceF_isSome {T : Type} (L : ELexer T) :
    ∀ (fuel : Nat) (s : EStream T), s.srcPos ≤ s.src.length →
      s.src.length - s.srcPos < fuel → (forceF L fuel s).isSome = true
  | 0, s, h1, h2 => absurd h2 (by omega)
  | fuel + 1, s, h1, h2 => by
    simp only [forceF]
    rcases hn : nextE L s with ⟨ok, s2⟩
    cases ok
    · simp
    · have hexec : execE L s = (true, s2) := by
        unfold nextE at hn
        by_cases he : s.err = true
        · rw [if_pos he] at hn; simp at hn
        · rw [if_neg he] at hn; exact hn
      obtain ⟨ha, hb, hsrc, -, -⟩ := execE_true h1 hexec
      have hrec := forceF_isSome L fuel s2 (by rw [hsrc]; exact hb)
        (by rw [hsrc]; omega)
      obtain ⟨rr, hrr⟩ := Option.isSome_iff_exists.mp hrec
      show (match forceF L fuel s2 with
        | none => none
        | some r => some (s2.tok.toList ++ r.1, r.2)).isSome = true
      rw [hrr]
      rfl

/-- C9: every successful `Stream.Next` strictly advances the stream cursor
`srcPos` while staying inside the input, the emitted token's matched text
`src[start:end]` is non-empty (a final state live at zero consumed length is
never recorded, since `detectFinal` demands `pos > end`), and a stored token
exists; consequently `Force` terminates on every finite input — here, fuel
`len(src) + 1` always suffices. -/
theorem C9_progress_termination :
    (∀ (T : Type) (L : ELexer T) (s s2 : EStream T),
        s.srcPos ≤ s.src.length → nextE L s = (true, s2) →
        s.srcPos < s2.srcPos ∧ s2.srcPos ≤ s.src.length ∧
          (s.src.drop s.srcPos).take (s2.srcPos - s.srcPos) ≠ [] ∧
          ∃ t, s2.tok = some t) ∧
    (∀ (T : Type) (L : ELexer T) (src : List Nat),
        (forceF L (src.length + 1) (tokenizeE L src)).isSome = true) := by
  constructor
  · intro T L s s2 hsp hn
    have hexec : execE L s = (true, s2) := by
      unfold nextE at hn
      by_cases he : s.err = true
      · rw [if_pos he] at hn; simp at hn
      · rw [if_neg he] at hn; exact hn
    obtain ⟨ha, hb, hsrc, -, ht⟩ := execE_true hsp hexec
    refine ⟨ha, hb, ?_, ht⟩
    have hlen : 0 < ((s.src.drop s.srcPos).take (s2.srcPos - s.srcPos)).length := by
      rw [List.length_take, List.length_drop]
      omega
    exact List.length_pos.mp hlen
  · intro T L src
    exact forceF_isSome L (src.length + 1) (tokenizeE L src)
      (by show (0 : Nat) ≤ src.length; omega)
      (by show src.length - 0 < src.length + 1; omega)

/-- Witness for C9 at the concrete lexer `L7` on input `ab`. -/
theorem C9_progress_termination_witness :
    (tokenizeE L7 [97, 98]).srcPos < stream71.srcPos ∧
    stream71.srcPos ≤ (tokenizeE L7 [97, 98]).src.length ∧
    ((tokenizeE L7 [97, 98]).src.drop (tokenizeE L7 [97, 98]).srcPos).take
      (stream71.srcPos - (tokenizeE L7 [97, 98]).srcPos) ≠ [] ∧
    ∃ t, stream71.tok = some t :=
  C9_progress_termination.1 Nat L7 (tokenizeE L7 [97, 98]) stream71
    (by decide) (by decide)

set_option maxRecDepth 40000 in
/-- C10: on the pattern `a-c`, the regex token lexer turns the middle `-`
into the charsetRange token (its single-char final, declared before the
any-char final, wins the tie at length one), the scanned `regexRules`
grammar accepts the token sequence, and the built derivation is the
sequence char(a), then the literal `-` match produced by
`regexRules.ParseRange` (`match{start: '-', end: '-'}`), then char(c) —
so a `-` outside a character class is accepted and denotes the literal
character, and `a-c` is the three-character sequence `a`, `-`, `c`. -/
theorem C10_dash_literal_outside_class :
    forceF regexProgE 5 (tokenizeE regexProgE [97, 45, 99]) =
      some (toksRx, false) ∧
    runState gRx toksRx 64 = some chartRx ∧
    matchesE gRx toksRx chartRx = none ∧
    buildE gRx chartRx toksRx 100 =
      some (.value (.vseq (.vmatch 97 97)
        (.vseq (.vmatch 45 45) (.vmatch 99 99)))) :=
  ⟨by decide, by decide, by decide, by decide⟩

/-- C7: refuted at the lexer `L7` (token 1 is `a`, token 2 is `abb`) on the
input `ab`. The first `Next` correctly emits token 1 for the prefix `a`, but
the scan-ahead left state 3 live in `this`, and the `pos >= len(src)` break
path of `exec` performs no buffer swap, so nothing clears it. The second
`Next` then emits token 2 for the text `b` — yet from a fresh start no
prefix of the remaining input `b` reaches any final state (`specFinalLive`
is false at both scanned lengths 0 and 1), so no call may emit a token
there, let alone one matching a longest such prefix. -/
theorem C7_stale_state_emits_unreachable_token :
    nextE L7 (tokenizeE L7 [97, 98]) = (true, stream71) ∧
    stream71.tok = some 1 ∧ stream71.srcPos = 1 ∧
    nextE L7 stream71 = (true, stream72) ∧
    stream72.tok = some 2 ∧ stream72.srcPos = 2 ∧
    specFinalLive L7 [97, 98] 1 0 = false ∧
    specFinalLive L7 [97, 98] 1 1 = false :=
  ⟨by decide, rfl, rfl, by decide, rfl, rfl, by decide, by decide⟩

end TP
